import Mathlib

/-!
Verification development for the column-normalization / schema-evolution ETL
pipeline (`src/data_cleaner.py`, `src/database_utils.py`, `src/geocoding.py`).

Python strings are modelled as lists of Unicode code points (`List Nat`).
The character-class predicates (`pyIsSpace`, `pyIsWordChar`, `pyIsDigit`,
`pyLower`) are faithful to Python 3 semantics for all code points up to
U+00FF (Basic Latin and Latin-1); code points above U+00FF are conservatively
treated as cased-less word characters, and every concrete input appearing in
a theorem below stays within the faithful range.
-/

/-- Code points of a Lean string literal; the bridge between readable string
literals in theorem statements and the `List Nat` model used throughout. -/
def strToCodes (s : String) : List Nat :=
  s.data.map Char.toNat

/-- Python whitespace for code points up to U+00FF: the set accepted by both
`str.strip()` and the regex class `\s` (9-13, 28-31, 32, U+0085, U+00A0). -/
def pyIsSpace (n : Nat) : Bool :=
  decide (n = 32 ∨ (9 ≤ n ∧ n ≤ 13) ∨ (28 ≤ n ∧ n ≤ 31) ∨ n = 133 ∨ n = 160)

/-- ASCII lowercase letter a-z. -/
def isAsciiLower (n : Nat) : Bool :=
  decide (97 ≤ n ∧ n ≤ 122)

/-- ASCII uppercase letter A-Z. -/
def isAsciiUpper (n : Nat) : Bool :=
  decide (65 ≤ n ∧ n ≤ 90)

/-- ASCII digit 0-9. -/
def isAsciiDigit (n : Nat) : Bool :=
  decide (48 ≤ n ∧ n ≤ 57)

/-- Python regex `\w` (word character): ASCII alphanumerics and underscore,
plus the Latin-1 alphanumerics (ªµº¹²³¼½¾ and the letters À-ÿ except × ÷).
Code points above U+00FF are conservatively classified as word characters. -/
def pyIsWordChar (n : Nat) : Bool :=
  isAsciiLower n || isAsciiUpper n || isAsciiDigit n || n == 95 ||
    decide (n = 170 ∨ n = 178 ∨ n = 179 ∨ n = 181 ∨ n = 185 ∨ n = 186 ∨
      n = 188 ∨ n = 189 ∨ n = 190 ∨
      (192 ≤ n ∧ n ≤ 255 ∧ n ≠ 215 ∧ n ≠ 247) ∨ 256 ≤ n)

/-- Python `str.isdigit` restricted to a single code point (≤ U+00FF):
ASCII digits plus the superscripts ¹ ² ³. -/
def pyIsDigit (n : Nat) : Bool :=
  isAsciiDigit n || decide (n = 178 ∨ n = 179 ∨ n = 185)

/-- Python `str.lower` on one code point (≤ U+00FF): A-Z and À-Þ (except ×)
map down by 0x20, everything else is fixed. -/
def pyLower (n : Nat) : Nat :=
  if 65 ≤ n ∧ n ≤ 90 then n + 32
  else if 192 ≤ n ∧ n ≤ 222 ∧ n ≠ 215 then n + 32
  else n

/-- Python `str.strip()` with no argument: drop leading and trailing
whitespace. -/
def pyStrip (l : List Nat) : List Nat :=
  ((l.dropWhile pyIsSpace).reverse.dropWhile pyIsSpace).reverse

/-- Python `str.strip('_')`: drop leading and trailing underscores. -/
def stripUnderscores (l : List Nat) : List Nat :=
  ((l.dropWhile (· == 95)).reverse.dropWhile (· == 95)).reverse

/-- One fuel step per consumed character. `replaceAllAux pat repl fuel l`
rewrites every non-overlapping occurrence of the literal pattern `pat`
(leftmost first, scanning left to right, never rescanning the replacement),
exactly as `re.sub` does on a literal pattern. The fuel argument only makes
the recursion structural; `replaceAll` supplies `l.length`, which is enough
fuel because every step consumes at least one character of a nonempty
pattern. -/
def replaceAllAux (pat repl : List Nat) : Nat → List Nat → List Nat
  | 0, l => l
  | _ + 1, [] => []
  | fuel + 1, c :: rest =>
    if pat ≠ [] ∧ pat.isPrefixOf (c :: rest) then
      repl ++ replaceAllAux pat repl fuel ((c :: rest).drop pat.length)
    else
      c :: replaceAllAux pat repl fuel rest

/-- Replace every occurrence of the literal pattern `pat` by `repl`, as
`re.sub(literal, repl, l)`. -/
def replaceAll (pat repl l : List Nat) : List Nat :=
  replaceAllAux pat repl l.length l

/-- Rewrite every maximal run of characters satisfying `p` into the single
character `r`, as `re.sub(cls + '+', r, l)` for a character class `cls`.
Fuel-structural; `collapseRuns` supplies enough fuel. -/
def collapseRunsAux (p : Nat → Bool) (r : Nat) : Nat → List Nat → List Nat
  | 0, l => l
  | _ + 1, [] => []
  | fuel + 1, c :: rest =>
    if p c then r :: collapseRunsAux p r fuel (rest.dropWhile p)
    else c :: collapseRunsAux p r fuel rest

/-- Rewrite every maximal run of characters satisfying `p` into `r`. -/
def collapseRuns (p : Nat → Bool) (r : Nat) (l : List Nat) : List Nat :=
  collapseRunsAux p r l.length l

/-- Decimal digit code points of `n`, most significant first; fuel makes the
`n / 10` recursion structural and `natRepr` supplies enough of it. -/
def decDigitsAux : Nat → Nat → List Nat
  | 0, _ => []
  | fuel + 1, n =>
    if n < 10 then [48 + n]
    else decDigitsAux fuel (n / 10) ++ [48 + n % 10]

/-- Code points of the Python decimal rendering `str(n)` of a natural
number. -/
def natRepr (n : Nat) : List Nat :=
  decDigitsAux (n + 1) n

/-- Value of a big-endian list of decimal digit code points; inverse of
`natRepr`, used to prove `natRepr` injective. -/
def decValue (l : List Nat) : Nat :=
  l.foldl (fun acc c => 10 * acc + (c - 48)) 0

/-- Default PostgreSQL reserved words of `normalize_db_column_name`
(`data_cleaner.py`, the `reserved_words is None` branch). -/
def reservedWords : List (List Nat) :=
  ["user", "order", "group", "select", "from", "where", "insert", "update",
   "delete", "create", "drop", "alter", "table", "index", "view", "database",
   "schema", "primary", "foreign", "key", "constraint", "references", "check",
   "unique", "not", "null", "default", "auto_increment", "serial", "boolean",
   "integer", "varchar", "text", "date", "time", "timestamp", "numeric",
   "real", "double", "precision", "decimal", "char", "binary", "blob"
  ].map strToCodes

/-- Unit and abbreviation substitutions of Step 3 of
`normalize_db_column_name`, in Python dict insertion order; each regex
pattern there is a literal string (`\(mw\)` matches the literal `(mw)`,
`\$` matches `$`). -/
def unitReplacements : List (List Nat × List Nat) :=
  [(strToCodes "(mw)", strToCodes "_mw"),
   (strToCodes "(gj)", strToCodes "_gj"),
   (strToCodes "(mwh)", strToCodes "_mwh"),
   (strToCodes "(tco2e)", strToCodes "_tco2e"),
   (strToCodes "(s)", strToCodes "s"),
   (strToCodes "(%)", strToCodes "_percent"),
   (strToCodes "$", strToCodes "dollar_")]

/-- Embedding of `normalize_db_column_name(name)` from `data_cleaner.py`
with the default reserved-word set (every caller in the repository uses the
default). Steps follow the source: initial empty check; strip; lowercase;
unit replacements; drop characters that are neither word characters nor
whitespace; whitespace runs to `_`; collapse `_` runs; strip `_`; empty
fallback `unnamed_column`; `col_` prefix for a leading digit; `_col` suffix
for reserved words; truncate to 60. -/
def normalize_db_column_name (name : List Nat) : List Nat :=
  if name = [] ∨ pyStrip name = [] then strToCodes "unnamed_column" else
  let s1 := pyStrip name
  let s2 := s1.map pyLower
  let s3 := unitReplacements.foldl (fun acc pr => replaceAll pr.1 pr.2 acc) s2
  let s4 := s3.filter (fun c => pyIsWordChar c || pyIsSpace c)
  let s5 := collapseRuns pyIsSpace 95 s4
  let s6 := collapseRuns (· == 95) 95 s5
  let s7 := stripUnderscores s6
  let s8 := if s7 = [] then strToCodes "unnamed_column" else s7
  let s9 := if pyIsDigit (s8.headD 32) then strToCodes "col_" ++ s8 else s8
  let s10 :=
    if reservedWords.contains (s9.map pyLower) then s9 ++ strToCodes "_col"
    else s9
  s10.take 60

/-- Code points of the f-string `f"(base)_(counter)"` used for duplicate
suffixing in `normalize_column_mapping`. -/
def suffixName (base : List Nat) (k : Nat) : List Nat :=
  base ++ 95 :: natRepr k

/-- The `while f"(base)_(counter)" in used_names: counter += 1` search of
`normalize_column_mapping`, returning the first free suffixed name starting
from counter `k`. Fuel-structural: the caller passes `used.length + 1`
candidates, which by pigeonhole always contains a free one, so the
fuel-exhausted branch is unreachable (`pickSuffixAux_not_mem`). -/
def pickSuffixAux (used : List (List Nat)) (base : List Nat) :
    Nat → Nat → List Nat
  | 0, k => suffixName base k
  | fuel + 1, k =>
    if used.contains (suffixName base k) then
      pickSuffixAux used base fuel (k + 1)
    else suffixName base k

/-- Body of the `for original_col in columns` loop of
`normalize_column_mapping`: `used` is the `used_names` set (modelled as the
list of names emitted so far; only membership and insertion are used). -/
def normalize_column_mapping_aux (used : List (List Nat)) :
    List (List Nat) → List (List Nat)
  | [] => []
  | c :: rest =>
    let n0 := normalize_db_column_name c
    let n :=
      if used.contains n0 then pickSuffixAux used n0 (used.length + 1) 1
      else n0
    n :: normalize_column_mapping_aux (used ++ [n]) rest

/-- Embedding of `normalize_column_mapping(columns)` from `data_cleaner.py`:
position-aligned normalized names with `_1`, `_2`, … suffixes for
duplicates. -/
def normalize_column_mapping (columns : List (List Nat)) : List (List Nat) :=
  normalize_column_mapping_aux [] columns

/-- The `MISSING_VALUE_INDICATORS` constant of `data_cleaner.py`. -/
def MISSING_VALUE_INDICATORS : List (List Nat) :=
  ["-", "", "nan", "NaN", "none", "None", "NULL", "null", "N/A", "n/a"
  ].map strToCodes

/-- Embedding of `is_missing_value(value)` from `data_cleaner.py`. `none`
models a platform null (`None` / float NaN, caught by `pd.isna`); a present
cell is its string rendering. The stripped value is compared against the
indicator list both verbatim and lower-cased. -/
def is_missing_value (value : Option (List Nat)) : Bool :=
  match value with
  | none => true
  | some s =>
    let str_val := pyStrip s
    MISSING_VALUE_INDICATORS.contains str_val ||
      (MISSING_VALUE_INDICATORS.map (List.map pyLower)).contains
        (str_val.map pyLower)

/-- Does `l` contain `pat` as a contiguous substring (Python `pat in l`)? -/
def containsSub (pat : List Nat) : List Nat → Bool
  | [] => pat.isEmpty
  | c :: rest => pat.isPrefixOf (c :: rest) || containsSub pat rest

/-- Drop the characters selected by `p` (a `re.sub(class, '', l)`). -/
def removeChars (p : Nat → Bool) (l : List Nat) : List Nat :=
  l.filter (fun c => !p c)

/-- ASCII letter, the regex class `[a-zA-Z]`. -/
def isAsciiAlpha (n : Nat) : Bool :=
  isAsciiLower n || isAsciiUpper n

/-- Optional leading `+` (code 43) or `-` (code 45); returns
(is-negative, remainder). -/
def splitSign : List Nat → Bool × List Nat
  | 43 :: rest => (false, rest)
  | 45 :: rest => (true, rest)
  | l => (false, l)

/-- Parse a Python `digitpart`: one or more ASCII digits with single
underscores allowed strictly between digits. Returns the value and the
number of digits. `parseUDigitsRest` continues after at least one digit. -/
def parseUDigitsRest : List Nat → Nat → Nat → Option (Nat × Nat)
  | [], acc, cnt => some (acc, cnt)
  | c :: rest, acc, cnt =>
    if isAsciiDigit c then parseUDigitsRest rest (10 * acc + (c - 48)) (cnt + 1)
    else if c == 95 then
      match rest with
      | [] => none
      | d :: rest2 =>
        if isAsciiDigit d then
          parseUDigitsRest rest2 (10 * acc + (d - 48)) (cnt + 1)
        else none
    else none

/-- Parse a Python `digitpart` (see `parseUDigitsRest`). -/
def parseUDigits : List Nat → Option (Nat × Nat)
  | [] => none
  | c :: rest =>
    if isAsciiDigit c then parseUDigitsRest rest (c - 48) 1 else none

/-- Split at the first `e`/`E` (exponent marker of a float literal). -/
def splitAtE : List Nat → List Nat × Option (List Nat)
  | [] => ([], none)
  | c :: rest =>
    if c == 101 || c == 69 then ([], some rest)
    else
      let p := splitAtE rest
      (c :: p.1, p.2)

/-- Split at the first `.` . -/
def splitAtDot : List Nat → List Nat × Option (List Nat)
  | [] => ([], none)
  | c :: rest =>
    if c == 46 then ([], some rest)
    else
      let p := splitAtDot rest
      (c :: p.1, p.2)

/-- Result of Python `float(s)`. A finite float is modelled as the exact
decimal rational `num / 10 ^ dexp`; the rounding of that rational to the
nearest IEEE double (and overflow of astronomically large finite literals
to infinity) is not modelled, and every concrete value a theorem below
evaluates is exactly representable. -/
inductive PyFloat where
  | finite (num : Int) (dexp : Nat)
  | infinite (neg : Bool)
  | nan
deriving DecidableEq

/-- Mantissa of a float literal (no sign, no exponent): returns the digits
value and the number of fractional digits. Accepts `d`, `d.`, `d.d`, `.d`
with underscores inside each digit run only. -/
def parseMantissa (l : List Nat) : Option (Nat × Nat) :=
  match splitAtDot l with
  | (intPart, none) =>
    match parseUDigits intPart with
    | none => none
    | some (iv, _) => some (iv, 0)
  | ([], some fracPart) =>
    match parseUDigits fracPart with
    | none => none
    | some (fv, fc) => some (fv, fc)
  | (intPart, some []) =>
    match parseUDigits intPart with
    | none => none
    | some (iv, _) => some (iv, 0)
  | (intPart, some fracPart) =>
    match parseUDigits intPart, parseUDigits fracPart with
    | some (iv, _), some (fv, fc) => some (iv * 10 ^ fc + fv, fc)
    | _, _ => none

/-- Embedding of Python `float(s)`: strip whitespace; optional sign; then
`inf`/`infinity`/`nan` (case-insensitive) or a decimal literal with an
optional `e`/`E` exponent. Returns `none` where `float` raises
`ValueError`. -/
def pyFloatParse (l : List Nat) : Option PyFloat :=
  let s := pyStrip l
  let sp := splitSign s
  let neg := sp.1
  let lowerBody := sp.2.map pyLower
  if lowerBody = strToCodes "inf" ∨ lowerBody = strToCodes "infinity" then
    some (.infinite neg)
  else if lowerBody = strToCodes "nan" then some .nan
  else
    let me := splitAtE sp.2
    let mant := parseMantissa me.1
    match mant with
    | none => none
    | some (m, fc) =>
      match me.2 with
      | none =>
        some (.finite (if neg then -(m : Int) else (m : Int)) fc)
      | some expPart =>
        let esp := splitSign expPart
        match parseUDigits esp.2 with
        | none => none
        | some (ev, _) =>
          if esp.1 then
            some (.finite (if neg then -(m : Int) else (m : Int)) (fc + ev))
          else
            some (.finite
              ((if neg then -(m : Int) else (m : Int)) * 10 ^ ev) fc)

/-- Embedding of Python `int(s)`: strip whitespace; optional sign; a
`digitpart`. Returns `none` where `int` raises `ValueError`. -/
def pyIntParse (l : List Nat) : Option Int :=
  let sp := splitSign (pyStrip l)
  match parseUDigits sp.2 with
  | none => none
  | some (v, _) => some (if sp.1 then -(v : Int) else (v : Int))

/-- Exact rational value of a finite parsed float (`none` for infinities and
NaN); used only in theorem statements. -/
def PyFloat.val? : PyFloat → Option ℚ
  | .finite n d => some ((n : ℚ) / 10 ^ d)
  | _ => none

/-- Python exceptions relevant to `clean_numeric_value`: its `except` clause
catches `ValueError` and `TypeError` only, so an `OverflowError` escapes. -/
inductive PyErr where
  | valueError
  | typeError
  | overflowError
deriving DecidableEq

/-- Python `int(f)` on a float: truncation toward zero for finite values,
`ValueError` on NaN, `OverflowError` on infinities. -/
def pyIntOfFloat : PyFloat → Except PyErr Int
  | .finite n d => .ok (n.tdiv ((10 : Int) ^ d))
  | .infinite _ => .error .overflowError
  | .nan => .error .valueError

/-- Division by `100.0` (exact on the decimal model: shift the exponent). -/
def pyDiv100 : PyFloat → PyFloat
  | .finite n d => .finite n (d + 2)
  | .infinite b => .infinite b
  | .nan => .nan

/-- One pass of `re.sub(r'[$€£¥,\s]|AUD|USD|EUR|GBP', '', s, flags=re.IGNORECASE)`:
at each position the character class is tried first, then the three-letter
currency codes case-insensitively. Fuel-structural (one unit per consumed
character). -/
def currencyStripAux : Nat → List Nat → List Nat
  | 0, l => l
  | _ + 1, [] => []
  | fuel + 1, c :: rest =>
    if c == 36 || c == 8364 || c == 163 || c == 165 || c == 44 || pyIsSpace c
    then currencyStripAux fuel rest
    else if
      [strToCodes "aud", strToCodes "usd", strToCodes "eur", strToCodes "gbp"
      ].contains (((c :: rest).take 3).map pyLower) then
      currencyStripAux fuel ((c :: rest).drop 3)
    else c :: currencyStripAux fuel rest

/-- Strip currency symbols, currency codes, thousands separators and
whitespace (the `currency` branch of `clean_numeric_value`). -/
def currencyStrip (l : List Nat) : List Nat :=
  currencyStripAux l.length l

/-- Embedding of `clean_numeric_value(value, target_type)` from
`data_cleaner.py`. `none` input models a `pd.isna` value. The result is
`.ok none` where the source returns `None` (missing value, or a parse
failure caught by `except (ValueError, TypeError)`), `.ok (some f)` where
it returns a float, and `.error e` where an exception escapes to the
caller (only `OverflowError` can). -/
def clean_numeric_value (value : Option (List Nat)) (target_type : List Nat) :
    Except PyErr (Option PyFloat) :=
  match value with
  | none => .ok none
  | some s =>
    if is_missing_value (some s) then .ok none else
    let str_val := pyStrip s
    let attempt : Except PyErr PyFloat :=
      if target_type = strToCodes "percentage" then
        let c1 := removeChars (fun c => c == 37 || pyIsSpace c) str_val
        let c2 := removeChars (fun c => c == 44) c1
        match pyFloatParse c2 with
        | none => .error .valueError
        | some f => .ok (pyDiv100 f)
      else if target_type = strToCodes "currency" then
        match pyFloatParse (currencyStrip str_val) with
        | none => .error .valueError
        | some f => .ok f
      else if target_type = strToCodes "capacity" then
        let c1 := removeChars (fun c => c == 44 || pyIsSpace c) str_val
        let c2 := removeChars isAsciiAlpha c1
        match pyFloatParse c2 with
        | none => .error .valueError
        | some f => .ok f
      else
        let clean_val := removeChars (fun c => c == 44 || pyIsSpace c) str_val
        if target_type = strToCodes "integer" then
          match pyFloatParse clean_val with
          | none => .error .valueError
          | some f =>
            match pyIntOfFloat f with
            | .error e => .error e
            | .ok i => .ok (.finite i 0)
        else
          match pyFloatParse clean_val with
          | none => .error .valueError
          | some f => .ok f
    match attempt with
    | .ok v => .ok (some v)
    | .error .valueError => .ok none
    | .error .typeError => .ok none
    | .error e => .error e

/-- Pattern counters of the `for val in str_values[:50]` loop of
`detect_numeric_columns`. -/
structure PatCounts where
  numeric : Nat
  percentage : Nat
  currency : Nat
deriving DecidableEq

/-- The numeric test of that loop: strip `[,\s]`, then `float` if a `.`
remains, else `int`; counts on parse success (`except ValueError: pass`). -/
def isNumericSample (val : List Nat) : Bool :=
  let clean_val := removeChars (fun c => c == 44 || pyIsSpace c) val
  if clean_val.contains 46 then (pyFloatParse clean_val).isSome
  else (pyIntParse clean_val).isSome

/-- One iteration of the pattern loop: percentage test (`%` or substring
`percent` of the lower-cased value), else currency test (`$ € £ ¥` or the
case-sensitive substrings `AUD`/`USD`), else the numeric test. -/
def scoreOne (c : PatCounts) (val : List Nat) : PatCounts :=
  if containsSub [37] val ||
      containsSub (strToCodes "percent") (val.map pyLower) then
    { c with percentage := c.percentage + 1 }
  else if [[36], [8364], [163], [165], strToCodes "AUD", strToCodes "USD"
      ].any (fun sym => containsSub sym val) then
    { c with currency := c.currency + 1 }
  else if isNumericSample val then { c with numeric := c.numeric + 1 }
  else c

/-- Per-column classifier of `detect_numeric_columns` (`data_cleaner.py`):
the cells of one sampled column (`none` = platform null removed by
`dropna`). Thresholds: the source compares counts with `total * 0.3` and
`numeric_count / total > 0.7` in IEEE doubles; for the integer counts and
totals `0 ≤ p, n ≤ t ≤ 50` that occur, those comparisons coincide exactly
with `10 * p > 3 * t` and `10 * n > 7 * t`, which is how they are written
here. -/
def classifyColumn (col : List (Option (List Nat))) : List Nat :=
  let sample_values := (col.filterMap id).take 100
  if sample_values = [] then strToCodes "text" else
  let str_values :=
    (sample_values.filter (fun v => !is_missing_value (some v))).map pyStrip
  if str_values = [] then strToCodes "text" else
  let scored := str_values.take 50
  let counts := scored.foldl scoreOne ⟨0, 0, 0⟩
  let total := scored.length
  if 10 * counts.percentage > 3 * total then strToCodes "percentage"
  else if 10 * counts.currency > 3 * total then strToCodes "currency"
  else if 10 * counts.numeric > 7 * total then
    let has_decimal := (str_values.take 20).any (fun v =>
      !(pyStrip v).isEmpty &&
        (removeChars (fun c => c == 44 || pyIsSpace c) v).contains 46)
    if has_decimal then strToCodes "float" else strToCodes "integer"
  else strToCodes "text"

/-- Live column set of a relational table: (column_name, sql_type) in
physical order, the view `information_schema.columns` exposes to
`column_exists`. -/
abbrev TableCols := List (List Nat × List Nat)

/-- Embedding of `column_exists(cursor, table_name, column_name)` from
`database_utils.py`: membership of the name in the live column set. -/
def column_exists (table : TableCols) (column_name : List Nat) : Bool :=
  table.any (fun p => p.1 == column_name)

/-- Embedding of `add_column_if_not_exists(cursor, table_name, column_name,
column_type)` from `database_utils.py`, single-writer view: when the column
is absent the `ALTER TABLE ... ADD COLUMN` appends it and the call returns
`True`; when present no statement is issued and the call returns `False`
(the `except` arm, which also returns `False`, is unreachable without a
concurrent writer; the concurrent semantics is `ensureStep` below). -/
def add_column_if_not_exists (table : TableCols)
    (column_name column_type : List Nat) : TableCols × Bool :=
  if column_exists table column_name then (table, false)
  else (table ++ [(column_name, column_type)], true)

/-- Fold `add_column_if_not_exists` over a column set: the ensure-columns
loop of the savers (e.g. the `for col_name, col_type in geocode_fields`
loop of `save_nger_data`). -/
def ensure_columns (table : TableCols) (cols : List (List Nat × List Nat)) :
    TableCols :=
  cols.foldl (fun t c => (add_column_if_not_exists t c.1 c.2).1) table

/-- Program counter of one worker running the body of
`add_column_if_not_exists` concurrently: not yet checked; checked with the
observed existence bit; or returned with the function's result. The
`except` clause swallows the duplicate-column error a lost race produces,
so a worker always reaches `ended`. -/
inductive WState where
  | start
  | checked (sawExists : Bool)
  | ended (result : Bool)
deriving DecidableEq

/-- Shared table plus the per-worker program counters. -/
structure RaceConfig where
  table : TableCols
  workers : List WState
deriving DecidableEq

/-- One atomic step of worker `i`, all workers adding the same column `X`
of type `ty` to the same table. A `start` worker runs the `column_exists`
query; a `checked false` worker runs the `ALTER`, which appends the column
if it is still absent and otherwise raises the duplicate-column error that
the `except` arm swallows into a `False` return; a `checked true` worker
just returns `False`. -/
def ensureStep (X ty : List Nat) (cfg : RaceConfig) (i : Nat) : RaceConfig :=
  match cfg.workers[i]? with
  | none => cfg
  | some .start =>
    { cfg with
      workers := cfg.workers.set i (.checked (column_exists cfg.table X)) }
  | some (.checked true) =>
    { cfg with workers := cfg.workers.set i (.ended false) }
  | some (.checked false) =>
    if column_exists cfg.table X then
      { cfg with workers := cfg.workers.set i (.ended false) }
    else
      { table := cfg.table ++ [(X, ty)],
        workers := cfg.workers.set i (.ended true) }
  | some (.ended _) => cfg

/-- Run an interleaving: the schedule lists, in order, which worker takes
the next atomic step. -/
def ensureRun (X ty : List Nat) (cfg : RaceConfig) (sched : List Nat) :
    RaceConfig :=
  sched.foldl (ensureStep X ty) cfg

/-- Number of physical columns named `X` in the table. -/
def colCount (table : TableCols) (X : List Nat) : Nat :=
  (table.map Prod.fst).count X

/-- Effects `save_nger_data` sends to the connection, as seen by the
database: chunked `execute_values` inserts, `conn.commit()`,
`conn.rollback()`. -/
inductive DBEvent (Row : Type) where
  | insertChunk (rows : List Row)
  | commit
  | rollback
deriving DecidableEq

/-- Slices `l[i:i+bs]` for `i in range(0, len(l), bs)` — the chunking loop
of `batch_insert`. Fuel-structural (one unit per emitted chunk; `l.length`
is enough fuel whenever `bs ≥ 1`). -/
def chunkListAux (bs : Nat) : Nat → List α → List (List α)
  | _, [] => []
  | 0, l => [l]
  | fuel + 1, l => l.take bs :: chunkListAux bs fuel (l.drop bs)

/-- Split `l` into chunks of size `bs` (last one possibly shorter). -/
def chunkList (bs : Nat) (l : List α) : List (List α) :=
  chunkListAux bs l.length l

/-- The chunk loop of `batch_insert(cursor, insert_sql, data)` under a
failure specification: `failAt = some i` means the `execute_values` call
for the `i`-th chunk (0-based, counting from `start`) raises a database
error if reached; `none` means every call succeeds. Returns the insert
events that reached the database and whether the loop completed. -/
def batchInsertAux (failAt : Option Nat) (start : Nat) :
    List (List Row) → List (DBEvent Row) × Bool
  | [] => ([], true)
  | ch :: rest =>
    if failAt = some start then ([], false)
    else
      let p := batchInsertAux failAt (start + 1) rest
      (.insertChunk ch :: p.1, p.2)

/-- Embedding of `batch_insert` (`database_utils.py`) with its default
`batch_size = 10000`, under a failure specification. -/
def batch_insert (data : List Row) (failAt : Option Nat) :
    List (DBEvent Row) × Bool :=
  batchInsertAux failAt 0 (chunkList 10000 data)

/-- Transactional skeleton of `save_nger_data(conn, year_label, df)`
(`database_utils.py`): the row tuples are built, `batch_insert` runs every
chunk on the fragment's single connection/transaction, and then exactly one
`conn.commit()`; any exception out of the insert loop lands in the
`except` arm, which issues `conn.rollback()` and returns `False`. The
DDL/geometry helpers called inside the same transaction swallow their own
errors and issue no commit, so the events the transaction control sees are
exactly these. -/
def save_nger_data (data : List Row) (failAt : Option Nat) :
    Bool × List (DBEvent Row) :=
  let p := batch_insert data failAt
  if p.2 then (true, p.1 ++ [.commit]) else (false, p.1 ++ [.rollback])

/-- Transaction-visible state of the table: rows inserted but not yet
committed in the open transaction, and rows made durable by a commit. -/
structure DBState (Row : Type) where
  pending : List Row
  committed : List Row
deriving DecidableEq

/-- Database semantics of one event. -/
def applyEvent : DBState Row → DBEvent Row → DBState Row
  | s, .insertChunk rs => ⟨s.pending ++ rs, s.committed⟩
  | s, .commit => ⟨[], s.committed ++ s.pending⟩
  | s, .rollback => ⟨[], s.committed⟩

/-- Run a list of events from a state. -/
def applyEvents (s : DBState Row) (evs : List (DBEvent Row)) : DBState Row :=
  evs.foldl applyEvent s

/-- UTF-8 bytes of one code point (`str.encode('utf-8')`). -/
def utf8EncodeCode (n : Nat) : List Nat :=
  if n < 128 then [n]
  else if n < 2048 then [192 + n / 64, 128 + n % 64]
  else if n < 65536 then
    [224 + n / 4096, 128 + (n / 64) % 64, 128 + n % 64]
  else
    [240 + n / 262144, 128 + (n / 4096) % 64, 128 + (n / 64) % 64,
     128 + n % 64]

/-- UTF-8 encoding of a code-point string. -/
def utf8Encode (l : List Nat) : List Nat :=
  l.flatMap utf8EncodeCode

/-- Rotate a 32-bit word left by `c` (0 < c < 32): the two shifted halves
occupy disjoint bit ranges, so their sum is their bitwise or. -/
def rotl32 (x c : Nat) : Nat :=
  (x % 2 ^ (32 - c)) * 2 ^ c + x / 2 ^ (32 - c)

/-- MD5 auxiliary function F(b,c,d) = (b ∧ c) ∨ (¬b ∧ d). -/
def md5F (b c d : Nat) : Nat :=
  Nat.lor (Nat.land b c) (Nat.land (2 ^ 32 - 1 - b) d)

/-- MD5 auxiliary function G(b,c,d) = (d ∧ b) ∨ (¬d ∧ c). -/
def md5G (b c d : Nat) : Nat :=
  Nat.lor (Nat.land d b) (Nat.land (2 ^ 32 - 1 - d) c)

/-- MD5 auxiliary function H(b,c,d) = b ⊕ c ⊕ d. -/
def md5H (b c d : Nat) : Nat :=
  Nat.xor b (Nat.xor c d)

/-- MD5 auxiliary function I(b,c,d) = c ⊕ (b ∨ ¬d). -/
def md5I (b c d : Nat) : Nat :=
  Nat.xor c (Nat.lor b (2 ^ 32 - 1 - d))

/-- MD5 per-round left-rotation amounts. -/
def md5S : List Nat :=
  [7, 12, 17, 22, 7, 12, 17, 22, 7, 12, 17, 22, 7, 12, 17, 22,
   5, 9, 14, 20, 5, 9, 14, 20, 5, 9, 14, 20, 5, 9, 14, 20,
   4, 11, 16, 23, 4, 11, 16, 23, 4, 11, 16, 23, 4, 11, 16, 23,
   6, 10, 15, 21, 6, 10, 15, 21, 6, 10, 15, 21, 6, 10, 15, 21]

/-- MD5 sine-derived constants K[0..63]. -/
def md5K : List Nat :=
  [0xd76aa478, 0xe8c7b756, 0x242070db, 0xc1bdceee,
   0xf57c0faf, 0x4787c62a, 0xa8304613, 0xfd469501,
   0x698098d8, 0x8b44f7af, 0xffff5bb1, 0x895cd7be,
   0x6b901122, 0xfd987193, 0xa679438e, 0x49b40821,
   0xf61e2562, 0xc040b340, 0x265e5a51, 0xe9b6c7aa,
   0xd62f105d, 0x02441453, 0xd8a1e681, 0xe7d3fbc8,
   0x21e1cde6, 0xc33707d6, 0xf4d50d87, 0x455a14ed,
   0xa9e3e905, 0xfcefa3f8, 0x676f02d9, 0x8d2a4c8a,
   0xfffa3942, 0x8771f681, 0x6d9d6122, 0xfde5380c,
   0xa4beea44, 0x4bdecfa9, 0xf6bb4b60, 0xbebfbc70,
   0x289b7ec6, 0xeaa127fa, 0xd4ef3085, 0x04881d05,
   0xd9d4d039, 0xe6db99e5, 0x1fa27cf8, 0xc4ac5665,
   0xf4292244, 0x432aff97, 0xab9423a7, 0xfc93a039,
   0x655b59c3, 0x8f0ccc92, 0xffeff47d, 0x85845dd1,
   0x6fa87e4f, 0xfe2ce6e0, 0xa3014314, 0x4e0811a1,
   0xf7537e82, 0xbd3af235, 0x2ad7d2bb, 0xeb86d391]

/-- One MD5 round on state (a,b,c,d) with message-word accessor `M`. -/
def md5Round (M : Nat → Nat) (st : Nat × Nat × Nat × Nat) (i : Nat) :
    Nat × Nat × Nat × Nat :=
  let a := st.1
  let b := st.2.1
  let c := st.2.2.1
  let d := st.2.2.2
  let fg : Nat × Nat :=
    if i < 16 then (md5F b c d, i)
    else if i < 32 then (md5G b c d, (5 * i + 1) % 16)
    else if i < 48 then (md5H b c d, (3 * i + 5) % 16)
    else (md5I b c d, (7 * i) % 16)
  let tmp := (fg.1 + a + md5K.getD i 0 + M fg.2) % 2 ^ 32
  (d, (b + rotl32 tmp (md5S.getD i 0)) % 2 ^ 32, b, c)

/-- Process one 64-byte block: 16 little-endian words, 64 rounds, add back
into the incoming state. -/
def md5ProcessBlock (st : Nat × Nat × Nat × Nat) (block : List Nat) :
    Nat × Nat × Nat × Nat :=
  let M := fun j =>
    block.getD (4 * j) 0 + 256 * block.getD (4 * j + 1) 0 +
      65536 * block.getD (4 * j + 2) 0 +
      16777216 * block.getD (4 * j + 3) 0
  let r := (List.range 64).foldl (md5Round M) st
  ((st.1 + r.1) % 2 ^ 32, (st.2.1 + r.2.1) % 2 ^ 32,
   (st.2.2.1 + r.2.2.1) % 2 ^ 32, (st.2.2.2 + r.2.2.2) % 2 ^ 32)

/-- MD5 padding: `0x80`, zeros to 56 mod 64, 8-byte little-endian bit
length. -/
def md5Pad (msg : List Nat) : List Nat :=
  let z := (120 - (msg.length + 1) % 64) % 64
  msg ++ 128 :: List.replicate z 0 ++
    (List.range 8).map (fun i => 8 * msg.length / 2 ^ (8 * i) % 256)

/-- MD5 digest (16 bytes) of a byte string. -/
def md5Digest (msg : List Nat) : List Nat :=
  let blocks := chunkList 64 (md5Pad msg)
  let st := blocks.foldl md5ProcessBlock
    (0x67452301, 0xefcdab89, 0x98badcfe, 0x10325476)
  [st.1, st.2.1, st.2.2.1, st.2.2.2].flatMap
    (fun w => [w % 256, w / 256 % 256, w / 65536 % 256, w / 16777216 % 256])

/-- Lowercase hexadecimal digit code point. -/
def hexDigit (n : Nat) : Nat :=
  if n < 10 then 48 + n else 87 + n

/-- Code points of `hashlib.md5(bytes).hexdigest()`. -/
def md5Hex (msg : List Nat) : List Nat :=
  (md5Digest msg).flatMap (fun b => [hexDigit (b / 16), hexDigit (b % 16)])

/-- One cache record as stored by `GeocodingCache._set_cache_entry`
(`geocoding.py`): the original query, the result (`none` for a cached
failure from `set_none`) and the key it was stored under. The wall-clock
`cached_at` timestamp is omitted — no cache read observes it. The payload
dicts are opaque to the cache, hence the type parameter `R`. -/
structure CacheEntry (R : Type) where
  query : List Nat
  result : Option R
  cache_key : List Nat
deriving DecidableEq

/-- The `self.cache` dict of `GeocodingCache`: key/entry bindings, lookup
returning the first binding of a key (a Python dict holds at most one). -/
abbrev GeocodingCache (R : Type) := List (List Nat × CacheEntry R)

/-- Embedding of `GeocodingCache._get_cache_key(query)`: the MD5 hex digest
of the UTF-8 bytes of `query.lower().strip()`. -/
def GeocodingCache.cacheKey (query : List Nat) : List Nat :=
  md5Hex (utf8Encode (pyStrip (query.map pyLower)))

/-- First binding of `key` in the dict model. -/
def GeocodingCache.find (cache : GeocodingCache R) (key : List Nat) :
    Option (CacheEntry R) :=
  match cache with
  | [] => none
  | kv :: rest =>
    if kv.1 == key then some kv.2 else GeocodingCache.find rest key

/-- Embedding of `GeocodingCache._set_cache_entry(query, result)`:
`self.cache[key] = entry` — overwrite the existing binding of the key, or
append a new one. -/
def GeocodingCache.setEntry (cache : GeocodingCache R) (query : List Nat)
    (result : Option R) : GeocodingCache R :=
  let key := GeocodingCache.cacheKey query
  let entry : CacheEntry R := ⟨query, result, key⟩
  if cache.any (fun kv => kv.1 == key) then
    cache.map (fun kv => if kv.1 == key then (key, entry) else kv)
  else cache ++ [(key, entry)]

/-- Embedding of `GeocodingCache.set(query, result)`. -/
def GeocodingCache.set (cache : GeocodingCache R) (query : List Nat)
    (result : R) : GeocodingCache R :=
  GeocodingCache.setEntry cache query (some result)

/-- Embedding of `GeocodingCache.get(query)`: look the key up and return
the entry's `result` field (an entry dict is always truthy). -/
def GeocodingCache.get (cache : GeocodingCache R) (query : List Nat) :
    Option R :=
  match GeocodingCache.find cache (GeocodingCache.cacheKey query) with
  | none => none
  | some e => e.result

/-- The spec-side well-formedness regex `^[a-z][a-z0-9_]\x7b0,59\x7d$` of the
normalizer claims: nonempty, ASCII lowercase head, tail of lowercase
letters / digits / underscores, total length at most 60. -/
def matchesIdentRegex (l : List Nat) : Bool :=
  match l with
  | [] => false
  | c :: rest =>
    isAsciiLower c &&
      rest.all (fun d => isAsciiLower d || isAsciiDigit d || d == 95) &&
      decide (rest.length ≤ 59)

/-- Classifier written from the claim's words rather than the source, for
refinement comparison: identical to `classifyColumn` except that the claim
chooses float when ANY sampled value contains a decimal point, whereas the
source inspects only the first 20 of them (`str_values[:20]`). -/
def classifyColumnClaimed (col : List (Option (List Nat))) : List Nat :=
  let sample_values := (col.filterMap id).take 100
  if sample_values = [] then strToCodes "text" else
  let str_values :=
    (sample_values.filter (fun v => !is_missing_value (some v))).map pyStrip
  if str_values = [] then strToCodes "text" else
  let scored := str_values.take 50
  let counts := scored.foldl scoreOne ⟨0, 0, 0⟩
  let total := scored.length
  if 10 * counts.percentage > 3 * total then strToCodes "percentage"
  else if 10 * counts.currency > 3 * total then strToCodes "currency"
  else if 10 * counts.numeric > 7 * total then
    let has_decimal := str_values.any (fun v =>
      !(pyStrip v).isEmpty &&
        (removeChars (fun c => c == 44 || pyIsSpace c) v).contains 46)
    if has_decimal then strToCodes "float" else strToCodes "integer"
  else strToCodes "text"

/-- C3 (counterexample): on `["Cost ($)", "cost", "Cost"]` the mapping does
NOT return `["dollar_cost", "cost", "cost_1"]` — the `$` substitution is
in-place, so `Cost ($)` normalizes to `cost_dollar`, not `dollar_cost`. -/
theorem C3_counterexample :
    normalize_column_mapping (["Cost ($)", "cost", "Cost"].map strToCodes) ≠
      ["dollar_cost", "cost", "cost_1"].map strToCodes := by
  decide

/-- C3 (amended): `normalize_column_mapping ["Cost ($)", "cost", "Cost"]`
returns exactly `["cost_dollar", "cost", "cost_1"]`: the normalizer maps
the character `$` to `dollar_` in place (so `Cost ($)` normalizes to
`cost_dollar`), and the third, duplicate entry receives the suffix `_1`. -/
theorem C3_amended :
    normalize_column_mapping (["Cost ($)", "cost", "Cost"].map strToCodes) =
        ["cost_dollar", "cost", "cost_1"].map strToCodes ∧
      normalize_db_column_name (strToCodes "Cost ($)") =
        strToCodes "cost_dollar" := by
  exact ⟨by decide, by decide⟩

/-- C7: the three coercion reference values hold exactly:
`clean_numeric_value("12.5%", 'percentage')` is the float 0.125,
`clean_numeric_value("1,234", 'integer')` is 1234, and
`clean_numeric_value("$1,000.50", 'currency')` is 1000.50. -/
theorem C7_coercion_reference_values :
    clean_numeric_value (some (strToCodes "12.5%")) (strToCodes "percentage") =
        .ok (some (.finite 125 3)) ∧
      (PyFloat.finite 125 3).val? = some (0.125 : ℚ) ∧
      clean_numeric_value (some (strToCodes "1,234")) (strToCodes "integer") =
        .ok (some (.finite 1234 0)) ∧
      (PyFloat.finite 1234 0).val? = some (1234 : ℚ) ∧
      clean_numeric_value (some (strToCodes "$1,000.50"))
          (strToCodes "currency") =
        .ok (some (.finite 100050 2)) ∧
      (PyFloat.finite 100050 2).val? = some (1000.50 : ℚ) := by
  refine ⟨rfl, ?_, rfl, ?_, rfl, ?_⟩
  · simp [PyFloat.val?]
    norm_num
  · simp [PyFloat.val?]
  · simp [PyFloat.val?]
    norm_num

/-- C8 (code bug): `clean_numeric_value("inf", 'integer')` raises — the
cleaned string parses as the float infinity, `int(float('inf'))` raises
`OverflowError`, and the `except (ValueError, TypeError)` clause does not
catch it, so the exception escapes to the caller instead of the documented
number-or-None result. -/
theorem C8_overflow_escapes :
    clean_numeric_value (some (strToCodes "inf")) (strToCodes "integer") =
      .error .overflowError := rfl

/-- C6 (counterexample): a column of the 20 integer renderings 1..20
followed by `1.5` has numeric ratio 21/21 > 70% and a sampled value with a
decimal point, so the claim's rule classifies it float; the source only
inspects the first 20 values for the decimal point and returns integer. -/
theorem C6_counterexample :
    classifyColumn
        ((List.range 20).map (fun i => some (natRepr (i + 1))) ++
          [some (strToCodes "1.5")]) =
        strToCodes "integer" ∧
      classifyColumnClaimed
        ((List.range 20).map (fun i => some (natRepr (i + 1))) ++
          [some (strToCodes "1.5")]) =
        strToCodes "float" ∧
      strToCodes "integer" ≠ strToCodes "float" := by
  exact ⟨by decide, by decide, by decide⟩

theorem column_exists_iff_mem (t : TableCols) (c : List Nat) :
    column_exists t c = true ↔ c ∈ t.map Prod.fst := by
  simp [column_exists, List.any_eq_true, List.mem_map]

theorem colCount_pos_iff (t : TableCols) (c : List Nat) :
    0 < colCount t c ↔ c ∈ t.map Prod.fst := by
  simp [colCount, List.count_pos_iff]

theorem add_column_of_exists (t : TableCols) (c ty : List Nat)
    (h : column_exists t c = true) :
    add_column_if_not_exists t c ty = (t, false) := by
  simp [add_column_if_not_exists, h]

theorem add_column_of_not_exists (t : TableCols) (c ty : List Nat)
    (h : column_exists t c = false) :
    add_column_if_not_exists t c ty = (t ++ [(c, ty)], true) := by
  simp [add_column_if_not_exists, h]

theorem add_column_mem_self (t : TableCols) (c ty : List Nat) :
    column_exists (add_column_if_not_exists t c ty).1 c = true := by
  by_cases h : column_exists t c = true
  · simp [add_column_of_exists t c ty h, h]
  · rw [add_column_of_not_exists t c ty (by simpa using h)]
    rw [column_exists_iff_mem]
    simp

theorem add_column_preserves_mem (t : TableCols) (c ty X : List Nat)
    (h : column_exists t X = true) :
    column_exists (add_column_if_not_exists t c ty).1 X = true := by
  by_cases hc : column_exists t c = true
  · simpa [add_column_of_exists t c ty hc]
  · rw [add_column_of_not_exists t c ty (by simpa using hc)]
    rw [column_exists_iff_mem] at h ⊢
    simp [h]

theorem add_column_count_le (t : TableCols) (c ty : List Nat)
    (h : ∀ X, colCount t X ≤ 1) :
    ∀ X, colCount (add_column_if_not_exists t c ty).1 X ≤ 1 := by
  intro X
  by_cases hc : column_exists t c = true
  · simpa [add_column_of_exists t c ty hc] using h X
  · rw [add_column_of_not_exists t c ty (by simpa using hc)]
    have hc0 : colCount t c = 0 := by
      by_contra hne
      have : 0 < colCount t c := Nat.pos_of_ne_zero hne
      rw [colCount_pos_iff] at this
      rw [← column_exists_iff_mem] at this
      exact hc this
    by_cases hX : X = c
    · subst hX
      simp [colCount, List.count_append] at hc0 ⊢
      simp [hc0, List.count_singleton]
    · have := h X
      simp [colCount, List.count_append] at this ⊢
      have hcnt : List.count X [c] = 0 := by
        simp [List.count_singleton, hX]
      omega

theorem ensure_columns_preserves_mem (cols : List (List Nat × List Nat))
    (t : TableCols) (X : List Nat) (h : column_exists t X = true) :
    column_exists (ensure_columns t cols) X = true := by
  induction cols generalizing t with
  | nil => simpa [ensure_columns]
  | cons p rest ih =>
    simp only [ensure_columns, List.foldl_cons]
    exact ih _ (add_column_preserves_mem t p.1 p.2 X h)

theorem ensure_columns_mem (cols : List (List Nat × List Nat))
    (t : TableCols) (c : List Nat) (h : c ∈ cols.map Prod.fst) :
    column_exists (ensure_columns t cols) c = true := by
  induction cols generalizing t with
  | nil => simp at h
  | cons p rest ih =>
    simp only [List.map_cons, List.mem_cons] at h
    simp only [ensure_columns, List.foldl_cons]
    rcases h with h | h
    · subst h
      exact ensure_columns_preserves_mem rest _ _ (add_column_mem_self t p.1 p.2)
    · exact ih _ h

theorem ensure_columns_count_le (cols : List (List Nat × List Nat))
    (t : TableCols) (h : ∀ X, colCount t X ≤ 1) :
    ∀ X, colCount (ensure_columns t cols) X ≤ 1 := by
  induction cols generalizing t with
  | nil => simpa [ensure_columns]
  | cons p rest ih =>
    simp only [ensure_columns, List.foldl_cons]
    exact ih _ (add_column_count_le t p.1 p.2 h)

theorem ensure_columns_noop (cols : List (List Nat × List Nat))
    (t : TableCols) (h : ∀ p ∈ cols, column_exists t p.1 = true) :
    ensure_columns t cols = t := by
  induction cols generalizing t with
  | nil => simp [ensure_columns]
  | cons p rest ih =>
    simp only [ensure_columns, List.foldl_cons]
    rw [add_column_of_exists t p.1 p.2 (h p (List.mem_cons_self p rest))]
    exact ih t (fun q hq => h q (List.mem_cons_of_mem p hq))

theorem ensure_columns_idem (t : TableCols)
    (cols : List (List Nat × List Nat)) :
    ensure_columns (ensure_columns t cols) cols = ensure_columns t cols := by
  apply ensure_columns_noop
  intro p hp
  apply ensure_columns_mem
  exact List.mem_map_of_mem Prod.fst hp

theorem ensure_columns_iterate (t : TableCols)
    (cols : List (List Nat × List Nat)) (n : Nat) :
    (fun s => ensure_columns s cols)^[n] (ensure_columns t cols) =
      ensure_columns t cols := by
  induction n with
  | zero => simp
  | succ m ih =>
    rw [Function.iterate_succ_apply]
    simpa [ensure_columns_idem] using ih

/-- C1: schema reconciliation is idempotent. (i) A second
`add_column_if_not_exists` for a column added by a first invocation issues
no ALTER (the table is unchanged) and returns `False`; (ii) re-running the
ensure-columns loop with the same column set leaves the table unchanged;
(iii) after any number of repeated ensure invocations, a table whose
column names were unique holds exactly one physical column per ensured
logical column name. -/
theorem C1_schema_idempotence :
    (∀ (t : TableCols) (c ty : List Nat),
      add_column_if_not_exists (add_column_if_not_exists t c ty).1 c ty =
        ((add_column_if_not_exists t c ty).1, false)) ∧
      (∀ (t : TableCols) (cols : List (List Nat × List Nat)),
        ensure_columns (ensure_columns t cols) cols = ensure_columns t cols) ∧
      (∀ (t : TableCols) (cols : List (List Nat × List Nat)) (c : List Nat)
        (n : Nat), (∀ X, colCount t X ≤ 1) → c ∈ cols.map Prod.fst →
        colCount ((fun s => ensure_columns s cols)^[n + 1] t) c = 1) := by
  refine ⟨?_, ensure_columns_idem, ?_⟩
  · intro t c ty
    exact add_column_of_exists _ c ty (add_column_mem_self t c ty)
  · intro t cols c n h hc
    have hstab : (fun s => ensure_columns s cols)^[n + 1] t =
        ensure_columns t cols := by
      rw [Function.iterate_succ_apply]
      exact ensure_columns_iterate t cols n
    rw [hstab]
    have h1 : colCount (ensure_columns t cols) c ≤ 1 :=
      ensure_columns_count_le cols t h c
    have h2 : 0 < colCount (ensure_columns t cols) c := by
      rw [colCount_pos_iff, ← column_exists_iff_mem]
      exact ensure_columns_mem cols t c hc
    omega

/-- C1 (witness): on an initially empty table, ensuring the geocode column
`lat NUMERIC` twice leaves exactly one `lat` column. -/
theorem C1_schema_idempotence_witness :
    colCount
      ((fun s => ensure_columns s [(strToCodes "lat", strToCodes "NUMERIC")])^[2]
        ([] : TableCols)) (strToCodes "lat") = 1 :=
  C1_schema_idempotence.2.2 [] [(strToCodes "lat", strToCodes "NUMERIC")]
    (strToCodes "lat") 1 (fun X => by simp [colCount]) (by decide)

theorem cacheKey_congr (q q' : List Nat)
    (h : pyStrip (q'.map pyLower) = pyStrip (q.map pyLower)) :
    GeocodingCache.cacheKey q' = GeocodingCache.cacheKey q := by
  unfold GeocodingCache.cacheKey
  rw [h]

theorem find_map_replace {R : Type} (cache : GeocodingCache R)
    (key : List Nat) (entry : CacheEntry R)
    (h : cache.any (fun kv => kv.1 == key) = true) :
    GeocodingCache.find
      (cache.map (fun kv => if kv.1 == key then (key, entry) else kv)) key =
      some entry := by
  induction cache with
  | nil => simp at h
  | cons kv rest ih =>
    by_cases hk : (kv.1 == key) = true
    · simp only [List.map_cons, if_pos hk]
      simp [GeocodingCache.find]
    · simp only [List.any_cons, hk, Bool.false_or] at h
      simp only [List.map_cons, if_neg hk, GeocodingCache.find]
      exact ih h

theorem find_append_new {R : Type} (cache : GeocodingCache R)
    (key : List Nat) (entry : CacheEntry R)
    (h : cache.any (fun kv => kv.1 == key) = false) :
    GeocodingCache.find (cache ++ [(key, entry)]) key = some entry := by
  induction cache with
  | nil => simp [GeocodingCache.find]
  | cons kv rest ih =>
    simp only [List.any_cons, Bool.or_eq_false_iff] at h
    simp [GeocodingCache.find, h.1, ih h.2]

theorem find_setEntry {R : Type} (cache : GeocodingCache R) (q : List Nat)
    (res : Option R) :
    GeocodingCache.find (GeocodingCache.setEntry cache q res)
      (GeocodingCache.cacheKey q) =
      some ⟨q, res, GeocodingCache.cacheKey q⟩ := by
  unfold GeocodingCache.setEntry
  by_cases hany :
      cache.any (fun kv => kv.1 == GeocodingCache.cacheKey q) = true
  · simp only [hany, if_true]
    exact find_map_replace cache _ _ hany
  · rw [Bool.not_eq_true] at hany
    simp only [hany, Bool.false_eq_true, if_false]
    exact find_append_new cache _ _ hany

theorem find_some_any {R : Type} (cache : GeocodingCache R) (key : List Nat)
    (e : CacheEntry R) (h : GeocodingCache.find cache key = some e) :
    cache.any (fun kv => kv.1 == key) = true := by
  induction cache with
  | nil => simp [GeocodingCache.find] at h
  | cons kv rest ih =>
    by_cases hk : kv.1 == key
    · simp [hk]
    · simp only [GeocodingCache.find, hk, if_false] at h
      simp [hk, ih h]

theorem setEntry_length_of_any {R : Type} (cache : GeocodingCache R)
    (q : List Nat) (res : Option R)
    (h : cache.any (fun kv => kv.1 == GeocodingCache.cacheKey q) = true) :
    (GeocodingCache.setEntry cache q res).length = cache.length := by
  unfold GeocodingCache.setEntry
  simp only [h, if_true, List.length_map]

/-- C10: geocode-cache keying is normalization-invariant. Because the
cache key is the MD5 hex digest of the lower-cased, trimmed query:
(i) after `set(q, r)`, `get(q')` returns `r` for every `q'` that agrees
with `q` after lower-casing and trimming (equality up to letter case and
surrounding whitespace); (ii) `get` on a cache in which nothing was ever
set returns null; (iii) a second `set` through such an equivalent query
string overwrites the same single entry instead of adding one. -/
theorem C10_cache_normalization_invariance :
    (∀ (R : Type) (cache : GeocodingCache R) (q : List Nat) (r : R)
      (q' : List Nat),
      pyStrip (q'.map pyLower) = pyStrip (q.map pyLower) →
      GeocodingCache.get (GeocodingCache.set cache q r) q' = some r) ∧
      (∀ (R : Type) (q : List Nat),
        GeocodingCache.get ([] : GeocodingCache R) q = none) ∧
      (∀ (R : Type) (cache : GeocodingCache R) (q q' : List Nat) (r r' : R),
        pyStrip (q'.map pyLower) = pyStrip (q.map pyLower) →
        (GeocodingCache.set (GeocodingCache.set cache q r) q' r').length =
          (GeocodingCache.set cache q r).length) := by
  refine ⟨?_, ?_, ?_⟩
  · intro R cache q r q' h
    unfold GeocodingCache.get
    rw [cacheKey_congr q q' h]
    rw [GeocodingCache.set, find_setEntry]
  · intro R q
    simp [GeocodingCache.get, GeocodingCache.find]
  · intro R cache q q' r r' h
    have hany :
        (GeocodingCache.set cache q r).any
          (fun kv => kv.1 == GeocodingCache.cacheKey q') = true := by
      rw [cacheKey_congr q q' h]
      exact find_some_any _ _ _ (find_setEntry cache q (some r))
    exact setEntry_length_of_any (GeocodingCache.set cache q r) q'
      (some r') hany

/-- C10 (witness): setting through `" Sydney NSW "` and reading through
`"sydney nsw"` hits the same entry. -/
theorem C10_cache_witness :
    GeocodingCache.get
      (GeocodingCache.set ([] : GeocodingCache Nat)
        (strToCodes " Sydney NSW ") 7)
      (strToCodes "sydney nsw") = some 7 :=
  C10_cache_normalization_invariance.1 Nat [] (strToCodes " Sydney NSW ") 7
    (strToCodes "sydney nsw") (by decide)

theorem chunkListAux_flatten {α : Type} (bs : Nat) (hbs : 1 ≤ bs) :
    ∀ (fuel : Nat) (l : List α), l.length ≤ fuel →
      (chunkListAux bs fuel l).flatten = l := by
  intro fuel
  induction fuel with
  | zero =>
    intro l hl
    have : l = [] := List.eq_nil_of_length_eq_zero (Nat.le_zero.mp hl)
    subst this
    simp [chunkListAux]
  | succ f ih =>
    intro l hl
    cases l with
    | nil => simp [chunkListAux]
    | cons x xs =>
      simp only [chunkListAux, List.flatten_cons]
      rw [ih ((x :: xs).drop bs)
        (by simp only [List.length_drop, List.length_cons] at hl ⊢; omega)]
      exact List.take_append_drop bs (x :: xs)

theorem chunkList_flatten {α : Type} (bs : Nat) (hbs : 1 ≤ bs) (l : List α) :
    (chunkList bs l).flatten = l :=
  chunkListAux_flatten bs hbs l.length l le_rfl

theorem batchInsertAux_inserts_only {Row : Type} (failAt : Option Nat) :
    ∀ (chunks : List (List Row)) (start : Nat),
      ∀ e ∈ (batchInsertAux failAt start chunks).1,
        ∃ rs, e = DBEvent.insertChunk rs := by
  intro chunks
  induction chunks with
  | nil => intro start e he; simp [batchInsertAux] at he
  | cons ch rest ih =>
    intro start e he
    by_cases hf : failAt = some start
    · simp [batchInsertAux, hf] at he
    · simp only [batchInsertAux, if_neg hf, List.mem_cons] at he
      rcases he with rfl | he
      · exact ⟨ch, rfl⟩
      · exact ih (start + 1) e he

theorem batchInsertAux_success {Row : Type} (failAt : Option Nat) :
    ∀ (chunks : List (List Row)) (start : Nat),
      (batchInsertAux failAt start chunks).2 = true →
      (batchInsertAux failAt start chunks).1 =
        chunks.map DBEvent.insertChunk := by
  intro chunks
  induction chunks with
  | nil => intro start _; simp [batchInsertAux]
  | cons ch rest ih =>
    intro start hok
    by_cases hf : failAt = some start
    · simp [batchInsertAux, hf] at hok
    · simp only [batchInsertAux, if_neg hf] at hok ⊢
      simp only [List.map_cons, List.cons_inj_right]
      exact ih (start + 1) hok

theorem applyEvents_inserts_committed {Row : Type} :
    ∀ (evs : List (DBEvent Row)) (s : DBState Row),
      (∀ e ∈ evs, ∃ rs, e = DBEvent.insertChunk rs) →
      (applyEvents s evs).committed = s.committed := by
  intro evs
  induction evs with
  | nil => intro s _; rfl
  | cons e rest ih =>
    intro s h
    obtain ⟨rs, rfl⟩ := h e (List.mem_cons_self e rest)
    simp only [applyEvents, List.foldl_cons]
    exact ih _ (fun e' he' => h e' (List.mem_cons_of_mem _ he'))

theorem applyEvents_insert_chunks {Row : Type} :
    ∀ (chunks : List (List Row)) (s : DBState Row),
      applyEvents s (chunks.map DBEvent.insertChunk) =
        ⟨s.pending ++ chunks.flatten, s.committed⟩ := by
  intro chunks
  induction chunks with
  | nil => intro s; simp [applyEvents]
  | cons ch rest ih =>
    intro s
    have ih2 := ih (⟨s.pending ++ ch, s.committed⟩ : DBState Row)
    simp only [applyEvents] at ih2 ⊢
    simp only [List.map_cons, List.foldl_cons, applyEvent]
    rw [ih2]
    simp [List.append_assoc]

/-- C9: fragment atomicity of the NGER batch loader. On the success path
the events of the fragment's transaction are exactly the chunked inserts
followed by a single final commit, and the committed rows are exactly the
fragment's rows; on any insert error the loader issues no commit, ends
with a rollback, returns `False`, and commits nothing. In every case the
committed set is all of the fragment or none of it. -/
theorem C9_fragment_atomicity :
    ∀ (Row : Type) (data : List Row) (failAt : Option Nat),
      ((save_nger_data data failAt).1 = true →
        (applyEvents ⟨[], []⟩ (save_nger_data data failAt).2).committed =
            data ∧
          (save_nger_data data failAt).2 =
            (chunkList 10000 data).map DBEvent.insertChunk ++
              [DBEvent.commit]) ∧
        ((save_nger_data data failAt).1 = false →
          (applyEvents ⟨[], []⟩ (save_nger_data data failAt).2).committed =
              [] ∧
            DBEvent.commit ∉ (save_nger_data data failAt).2 ∧
            (save_nger_data data failAt).2.getLast? =
              some DBEvent.rollback) ∧
        ((applyEvents ⟨[], []⟩ (save_nger_data data failAt).2).committed =
            data ∨
          (applyEvents ⟨[], []⟩ (save_nger_data data failAt).2).committed =
            []) := by
  intro Row data failAt
  have hinserts := batchInsertAux_inserts_only failAt
    (chunkList 10000 data) 0
  by_cases hok : (batchInsertAux failAt 0 (chunkList 10000 data)).2 = true
  · have hevs := batchInsertAux_success failAt (chunkList 10000 data) 0 hok
    have hsave : save_nger_data data failAt =
        (true, (chunkList 10000 data).map DBEvent.insertChunk ++
          [DBEvent.commit]) := by
      unfold save_nger_data batch_insert
      simp only [hok, if_true, hevs]
    rw [hsave]
    have happly :
        (applyEvents (⟨[], []⟩ : DBState Row)
          ((chunkList 10000 data).map DBEvent.insertChunk ++
            [DBEvent.commit])).committed = data := by
      have h1 := applyEvents_insert_chunks (chunkList 10000 data)
        (⟨[], []⟩ : DBState Row)
      simp only [applyEvents] at h1 ⊢
      rw [List.foldl_append, h1]
      simp [applyEvent, chunkList_flatten 10000 (by omega) data]
    exact ⟨fun _ => ⟨happly, rfl⟩, fun hfalse => by simp at hfalse,
      Or.inl happly⟩
  · have hfail : (batchInsertAux failAt 0 (chunkList 10000 data)).2 = false :=
      Bool.not_eq_true _ ▸ hok
    have hsave : save_nger_data data failAt =
        (false, (batchInsertAux failAt 0 (chunkList 10000 data)).1 ++
          [DBEvent.rollback]) := by
      unfold save_nger_data batch_insert
      simp [hfail]
    rw [hsave]
    have hcommitted :
        (applyEvents (⟨[], []⟩ : DBState Row)
          ((batchInsertAux failAt 0 (chunkList 10000 data)).1 ++
            [DBEvent.rollback])).committed = [] := by
      have h1 := applyEvents_inserts_committed
        (batchInsertAux failAt 0 (chunkList 10000 data)).1
        (⟨[], []⟩ : DBState Row) hinserts
      simp only [applyEvents] at h1 ⊢
      rw [List.foldl_append]
      simp only [List.foldl_cons, List.foldl_nil, applyEvent]
      exact h1
    have hnocommit : DBEvent.commit ∉
        ((batchInsertAux failAt 0 (chunkList 10000 data)).1 ++
          [DBEvent.rollback]) := by
      intro hmem
      rcases List.mem_append.mp hmem with hmem | hmem
      · obtain ⟨rs, hrs⟩ := hinserts _ hmem
        exact DBEvent.noConfusion hrs
      · simp at hmem
    exact ⟨fun htrue => by simp at htrue,
      fun _ => ⟨hcommitted, hnocommit, List.getLast?_concat _⟩,
      Or.inr hcommitted⟩

/-- C9 (witness): a three-row fragment with no insert failure commits all
three rows, and the same fragment failing on chunk 0 commits none. -/
theorem C9_fragment_atomicity_witness :
    (applyEvents ⟨[], []⟩ (save_nger_data [10, 20, 30] (none : Option Nat)).2
      ).committed = [10, 20, 30] ∧
      (applyEvents ⟨[], []⟩ (save_nger_data [10, 20, 30] (some 0)).2
        ).committed = ([] : List Nat) :=
  ⟨((C9_fragment_atomicity Nat [10, 20, 30] none).1 (by decide)).1,
    ((C9_fragment_atomicity Nat [10, 20, 30] (some 0)).2.1 (by decide)).1⟩

theorem decValue_snoc (xs : List Nat) (c : Nat) :
    decValue (xs ++ [c]) = 10 * decValue xs + (c - 48) := by
  simp [decValue, List.foldl_append]

theorem decValue_decDigitsAux : ∀ (fuel n : Nat), n < fuel →
    decValue (decDigitsAux fuel n) = n := by
  intro fuel
  induction fuel with
  | zero => intro n h; omega
  | succ f ih =>
    intro n h
    by_cases h10 : n < 10
    · simp only [decDigitsAux, if_pos h10, decValue, List.foldl_cons,
        List.foldl_nil]
      omega
    · have hdiv : n / 10 < f := by
        have := Nat.div_lt_self (show 0 < n by omega) (show 1 < 10 by omega)
        omega
      simp only [decDigitsAux, if_neg h10]
      rw [decValue_snoc, ih (n / 10) hdiv]
      have := Nat.div_add_mod n 10
      omega

theorem natRepr_injective : Function.Injective natRepr := by
  intro a b h
  have ha : decValue (natRepr a) = a :=
    decValue_decDigitsAux (a + 1) a (Nat.lt_succ_self a)
  have hb : decValue (natRepr b) = b :=
    decValue_decDigitsAux (b + 1) b (Nat.lt_succ_self b)
  rw [← ha, ← hb, h]

theorem suffixName_inj (base : List Nat) {a b : Nat}
    (h : suffixName base a = suffixName base b) : a = b := by
  unfold suffixName at h
  have h1 := List.append_cancel_left h
  have h2 : natRepr a = natRepr b := by
    simpa using h1
  exact natRepr_injective h2

theorem exists_free_suffix (used : List (List Nat)) (base : List Nat) :
    ∃ j, 1 ≤ j ∧ j ≤ used.length + 1 ∧ suffixName base j ∉ used := by
  by_contra hcon
  push_neg at hcon
  have hinj : Function.Injective (fun i : Nat => suffixName base (i + 1)) := by
    intro a b hab
    have := suffixName_inj base hab
    omega
  have hnd : ((List.range (used.length + 1)).map
      (fun i => suffixName base (i + 1))).Nodup :=
    (List.nodup_range (used.length + 1)).map hinj
  have hsub : ((List.range (used.length + 1)).map
      (fun i => suffixName base (i + 1))) ⊆ used := by
    intro x hx
    simp only [List.mem_map, List.mem_range] at hx
    obtain ⟨i, hi, rfl⟩ := hx
    exact hcon (i + 1) (by omega) (by omega)
  have c1 := List.toFinset_card_of_nodup hnd
  have c2 : ((List.range (used.length + 1)).map
      (fun i => suffixName base (i + 1))).toFinset ⊆ used.toFinset := by
    intro x hx
    simp only [List.mem_toFinset] at hx ⊢
    exact hsub hx
  have c3 := Finset.card_le_card c2
  have c4 := used.toFinset_card_le
  have c5 : ((List.range (used.length + 1)).map
      (fun i => suffixName base (i + 1))).length = used.length + 1 := by
    simp
  omega

theorem pickSuffixAux_spec (used : List (List Nat)) (base : List Nat) :
    ∀ (fuel k : Nat),
      (∃ j, k ≤ j ∧ j < k + fuel + 1 ∧ suffixName base j ∉ used) →
      ∃ j, k ≤ j ∧ pickSuffixAux used base fuel k = suffixName base j ∧
        suffixName base j ∉ used ∧
        ∀ i, k ≤ i → i < j → suffixName base i ∈ used := by
  intro fuel
  induction fuel with
  | zero =>
    intro k hex
    obtain ⟨j, hkj, hlt, hfree⟩ := hex
    have hj : j = k := by omega
    subst hj
    exact ⟨j, le_rfl, rfl, hfree, fun i h1 h2 => absurd h2 (by omega)⟩
  | succ f ih =>
    intro k hex
    by_cases hc : used.contains (suffixName base k) = true
    · have hmemk : suffixName base k ∈ used := by simpa using hc
      obtain ⟨j, hkj, hlt, hfree⟩ := hex
      have hjk : j ≠ k := fun he => hfree (he ▸ hmemk)
      obtain ⟨j', h1, h2, h3, h4⟩ :=
        ih (k + 1) ⟨j, by omega, by omega, hfree⟩
      refine ⟨j', by omega, ?_, h3, ?_⟩
      · simp only [pickSuffixAux, hc, if_true]
        exact h2
      · intro i hi hij
        rcases Nat.eq_or_lt_of_le hi with rfl | hlt2
        · exact hmemk
        · exact h4 i (by omega) hij
    · refine ⟨k, le_rfl, ?_, fun hmem => hc (by simpa using hmem),
        fun i h1 h2 => absurd h2 (by omega)⟩
      simp only [pickSuffixAux]
      rw [if_neg hc]

theorem chosenName_spec (used : List (List Nat)) (n0 : List Nat) :
    (if used.contains n0 then
        pickSuffixAux used n0 (used.length + 1) 1 else n0) ∉ used ∧
      (used.contains n0 = false →
        (if used.contains n0 then
          pickSuffixAux used n0 (used.length + 1) 1 else n0) = n0) ∧
      (used.contains n0 = true →
        ∃ j, 1 ≤ j ∧
          (if used.contains n0 then
            pickSuffixAux used n0 (used.length + 1) 1 else n0) =
            suffixName n0 j ∧
          suffixName n0 j ∉ used ∧
          ∀ i, 1 ≤ i → i < j → suffixName n0 i ∈ used) := by
  by_cases hc : used.contains n0 = true
  · obtain ⟨jf, hjf1, hjf2, hjf3⟩ := exists_free_suffix used n0
    obtain ⟨j, h1, h2, h3, h4⟩ := pickSuffixAux_spec used n0
      (used.length + 1) 1 ⟨jf, hjf1, by omega, hjf3⟩
    refine ⟨?_, ?_, ?_⟩
    · rw [if_pos hc, h2]
      exact h3
    · intro hfalse
      rw [hc] at hfalse
      cases hfalse
    · intro hx
      exact ⟨j, h1, by rw [if_pos hc, h2], h3, h4⟩
  · refine ⟨?_, fun _ => by rw [if_neg hc], fun htrue => absurd htrue hc⟩
    rw [if_neg hc]
    exact fun hmem => hc (by simpa using hmem)

theorem ncm_aux_length : ∀ (cols used : List (List Nat)),
    (normalize_column_mapping_aux used cols).length = cols.length := by
  intro cols
  induction cols with
  | nil => intro used; simp [normalize_column_mapping_aux]
  | cons c rest ih =>
    intro used
    simp only [normalize_column_mapping_aux, List.length_cons]
    rw [ih]

theorem ncm_aux_fresh : ∀ (cols used : List (List Nat)),
    (∀ x ∈ normalize_column_mapping_aux used cols, x ∉ used) ∧
      (normalize_column_mapping_aux used cols).Nodup := by
  intro cols
  induction cols with
  | nil =>
    intro used
    constructor
    · intro x hx
      simp [normalize_column_mapping_aux] at hx
    · simp [normalize_column_mapping_aux]
  | cons c rest ih =>
    intro used
    obtain ⟨hn, -, -⟩ := chosenName_spec used (normalize_db_column_name c)
    obtain ⟨ih1, ih2⟩ := ih (used ++
      [if used.contains (normalize_db_column_name c) then
        pickSuffixAux used (normalize_db_column_name c) (used.length + 1) 1
      else normalize_db_column_name c])
    constructor
    · intro x hx
      simp only [normalize_column_mapping_aux, List.mem_cons] at hx
      rcases hx with rfl | hx
      · exact hn
      · intro hxu
        exact (ih1 x hx) (List.mem_append.mpr (Or.inl hxu))
    · simp only [normalize_column_mapping_aux, List.nodup_cons]
      refine ⟨?_, ih2⟩
      intro hmem
      exact (ih1 _ hmem)
        (List.mem_append.mpr (Or.inr (List.mem_singleton.mpr rfl)))

theorem ncm_aux_forall2 : ∀ (cols used : List (List Nat)),
    List.Forall₂ (fun c o => o = normalize_db_column_name c ∨
      ∃ k, 1 ≤ k ∧ o = suffixName (normalize_db_column_name c) k) cols
      (normalize_column_mapping_aux used cols) := by
  intro cols
  induction cols with
  | nil => intro used; simp [normalize_column_mapping_aux]
  | cons c rest ih =>
    intro used
    obtain ⟨-, hfalse, htrue⟩ := chosenName_spec used
      (normalize_db_column_name c)
    simp only [normalize_column_mapping_aux]
    refine List.Forall₂.cons ?_ (ih _)
    by_cases hc : used.contains (normalize_db_column_name c) = true
    · obtain ⟨j, h1, h2, -, -⟩ := htrue hc
      exact Or.inr ⟨j, h1, h2⟩
    · rw [Bool.not_eq_true] at hc
      exact Or.inl (hfalse hc)

theorem ncm_aux_append : ∀ (l₁ used l₂ : List (List Nat)),
    normalize_column_mapping_aux used (l₁ ++ l₂) =
      normalize_column_mapping_aux used l₁ ++
        normalize_column_mapping_aux
          (used ++ normalize_column_mapping_aux used l₁) l₂ := by
  intro l₁
  induction l₁ with
  | nil => intro used l₂; simp [normalize_column_mapping_aux]
  | cons c rest ih =>
    intro used l₂
    simp only [List.cons_append, normalize_column_mapping_aux,
      List.append_eq]
    rw [ih]
    simp [List.append_assoc]

/-- C5: deduplication invariant and order-determinism of
`normalize_column_mapping`. For every ordered list of raw headers:
(i) the output has the same length (position alignment); (ii) the output
names are pairwise distinct; (iii) each output is the normalized source
name, or that name with a numeric suffix `_k`, `k ≥ 1`; (iv) the output is
a prefix-deterministic function of the input — the output for a prefix of
the input is the corresponding prefix of the output; (v) appending one
more header emits the plain normalized name when it is fresh and otherwise
the least-indexed free suffix `_j` (every smaller index being already
taken), which forces `_1`, `_2`, … in first-seen order. -/
theorem C5_dedup_invariant :
    ∀ cols : List (List Nat),
      (normalize_column_mapping cols).length = cols.length ∧
      (normalize_column_mapping cols).Nodup ∧
      List.Forall₂ (fun c o => o = normalize_db_column_name c ∨
        ∃ k, 1 ≤ k ∧ o = suffixName (normalize_db_column_name c) k) cols
        (normalize_column_mapping cols) ∧
      (∀ l₂, (normalize_column_mapping (cols ++ l₂)).take cols.length =
        normalize_column_mapping cols) ∧
      (∀ c : List Nat,
        (normalize_db_column_name c ∉ normalize_column_mapping cols →
          normalize_column_mapping (cols ++ [c]) =
            normalize_column_mapping cols ++ [normalize_db_column_name c]) ∧
        (normalize_db_column_name c ∈ normalize_column_mapping cols →
          ∃ j, 1 ≤ j ∧
            normalize_column_mapping (cols ++ [c]) =
              normalize_column_mapping cols ++
                [suffixName (normalize_db_column_name c) j] ∧
            suffixName (normalize_db_column_name c) j ∉
              normalize_column_mapping cols ∧
            ∀ i, 1 ≤ i → i < j → suffixName (normalize_db_column_name c) i ∈
              normalize_column_mapping cols)) := by
  intro cols
  refine ⟨ncm_aux_length cols [], (ncm_aux_fresh cols []).2,
    ncm_aux_forall2 cols [], ?_, ?_⟩
  · intro l₂
    unfold normalize_column_mapping
    rw [ncm_aux_append cols [] l₂]
    exact List.take_left' (ncm_aux_length cols [])
  · intro c
    have hsnoc : normalize_column_mapping (cols ++ [c]) =
        normalize_column_mapping cols ++
          normalize_column_mapping_aux (normalize_column_mapping cols) [c] := by
      unfold normalize_column_mapping
      rw [ncm_aux_append cols [] [c]]
      simp [normalize_column_mapping]
    obtain ⟨-, hfalse, htrue⟩ := chosenName_spec
      (normalize_column_mapping cols) (normalize_db_column_name c)
    constructor
    · intro hnotmem
      rw [hsnoc]
      have hc : (normalize_column_mapping cols).contains
          (normalize_db_column_name c) = false := by
        rw [← Bool.not_eq_true]
        exact fun habs => hnotmem (by simpa using habs)
      simp only [normalize_column_mapping_aux]
      rw [hfalse hc]
    · intro hmem
      have hc : (normalize_column_mapping cols).contains
          (normalize_db_column_name c) = true := by simpa using hmem
      obtain ⟨j, h1, h2, h3, h4⟩ := htrue hc
      refine ⟨j, h1, ?_, h3, h4⟩
      rw [hsnoc]
      simp only [normalize_column_mapping_aux]
      rw [h2]

/-- C5 (witness): appending a duplicate `Cost` header after a `cost` header
yields the suffixed fresh name required by the dedup rule. -/
theorem C5_dedup_invariant_witness :
    ∃ j, 1 ≤ j ∧
      normalize_column_mapping ([strToCodes "cost"] ++ [strToCodes "Cost"]) =
        normalize_column_mapping [strToCodes "cost"] ++
          [suffixName (normalize_db_column_name (strToCodes "Cost")) j] ∧
      suffixName (normalize_db_column_name (strToCodes "Cost")) j ∉
        normalize_column_mapping [strToCodes "cost"] ∧
      ∀ i, 1 ≤ i → i < j →
        suffixName (normalize_db_column_name (strToCodes "Cost")) i ∈
          normalize_column_mapping [strToCodes "cost"] :=
  ((C5_dedup_invariant [strToCodes "cost"]).2.2.2.2
    (strToCodes "Cost")).2 (by decide)

/-- C6 (amended): classification rule of `detect_numeric_columns`, per
column. With `sv` the stripped non-missing sampled values and `cnt` the
pattern counters over the first 50 of them: the column classifies
percentage iff the percentage matches exceed 30% of the scored values;
else currency iff the currency matches exceed 30%; else float/integer iff
the numeric ratio exceeds 70%, choosing float iff any of the FIRST 20
stripped sampled values contains a decimal point after removing commas and
whitespace (the source inspects `str_values[:20]` only — this is the one
place the original claim had to be corrected); else text; and a sampled
column whose values are all missing classifies text. -/
theorem C6_amended_classification :
    ∀ (col : List (Option (List Nat))) (sv : List (List Nat))
      (cnt : PatCounts),
      sv = (((col.filterMap id).take 100).filter
        (fun v => !is_missing_value (some v))).map pyStrip →
      cnt = (sv.take 50).foldl scoreOne ⟨0, 0, 0⟩ →
      ((classifyColumn col = strToCodes "percentage" ↔
        10 * cnt.percentage > 3 * (sv.take 50).length) ∧
      (classifyColumn col = strToCodes "currency" ↔
        ¬(10 * cnt.percentage > 3 * (sv.take 50).length) ∧
          10 * cnt.currency > 3 * (sv.take 50).length) ∧
      (classifyColumn col = strToCodes "float" ↔
        ¬(10 * cnt.percentage > 3 * (sv.take 50).length) ∧
          ¬(10 * cnt.currency > 3 * (sv.take 50).length) ∧
          10 * cnt.numeric > 7 * (sv.take 50).length ∧
          (sv.take 20).any (fun v => !(pyStrip v).isEmpty &&
            (removeChars (fun c => c == 44 || pyIsSpace c) v).contains 46) =
            true) ∧
      (classifyColumn col = strToCodes "integer" ↔
        ¬(10 * cnt.percentage > 3 * (sv.take 50).length) ∧
          ¬(10 * cnt.currency > 3 * (sv.take 50).length) ∧
          10 * cnt.numeric > 7 * (sv.take 50).length ∧
          ¬((sv.take 20).any (fun v => !(pyStrip v).isEmpty &&
            (removeChars (fun c => c == 44 || pyIsSpace c) v).contains 46) =
            true)) ∧
      ((col.filterMap id).take 100 ≠ [] → sv = [] →
        classifyColumn col = strToCodes "text")) := by
  intro col sv cnt hsv hcnt
  have dpt : strToCodes "percentage" ≠ strToCodes "text" := by decide
  have dct : strToCodes "currency" ≠ strToCodes "text" := by decide
  have dft : strToCodes "float" ≠ strToCodes "text" := by decide
  have dit : strToCodes "integer" ≠ strToCodes "text" := by decide
  have dpc : strToCodes "percentage" ≠ strToCodes "currency" := by decide
  have dpf : strToCodes "percentage" ≠ strToCodes "float" := by decide
  have dpi : strToCodes "percentage" ≠ strToCodes "integer" := by decide
  have dcf : strToCodes "currency" ≠ strToCodes "float" := by decide
  have dci : strToCodes "currency" ≠ strToCodes "integer" := by decide
  have dfi : strToCodes "float" ≠ strToCodes "integer" := by decide
  subst hsv
  subst hcnt
  simp only [classifyColumn]
  split_ifs with h1 h2 h3 h4 h5 h6
  · have hsv0 : (((col.filterMap id).take 100).filter
        (fun v => !is_missing_value (some v))).map pyStrip = [] := by
      rw [h1]
      rfl
    rw [hsv0]
    exact ⟨iff_of_false (fun h => dpt h.symm) (by decide),
      iff_of_false (fun h => dct h.symm) (by decide),
      iff_of_false (fun h => dft h.symm) (by decide),
      iff_of_false (fun h => dit h.symm) (by decide),
      fun _ _ => rfl⟩
  · rw [h2]
    exact ⟨iff_of_false (fun h => dpt h.symm) (by decide),
      iff_of_false (fun h => dct h.symm) (by decide),
      iff_of_false (fun h => dft h.symm) (by decide),
      iff_of_false (fun h => dit h.symm) (by decide),
      fun _ _ => rfl⟩
  · refine ⟨iff_of_true rfl h3,
      iff_of_false dpc (fun hx => hx.1 h3),
      iff_of_false dpf (fun hx => hx.1 h3),
      iff_of_false dpi (fun hx => hx.1 h3),
      fun _ hsv0 => ?_⟩
    rw [hsv0] at h3
    exact absurd h3 (by decide)
  · refine ⟨iff_of_false (fun h => dpc h.symm) h3,
      iff_of_true rfl ⟨h3, h4⟩,
      iff_of_false dcf (fun hx => hx.2.1 h4),
      iff_of_false dci (fun hx => hx.2.1 h4),
      fun _ hsv0 => ?_⟩
    rw [hsv0] at h4
    exact absurd h4 (by decide)
  · refine ⟨iff_of_false (fun h => dpf h.symm) h3,
      iff_of_false (fun h => dcf h.symm) (fun hx => h4 hx.2),
      iff_of_true rfl ⟨h3, h4, h5, h6⟩,
      iff_of_false dfi (fun hx => hx.2.2.2 h6),
      fun _ hsv0 => ?_⟩
    rw [hsv0] at h5
    exact absurd h5 (by decide)
  · refine ⟨iff_of_false (fun h => dpi h.symm) h3,
      iff_of_false (fun h => dci h.symm) (fun hx => h4 hx.2),
      iff_of_false (fun h => dfi h.symm) (fun hx => h6 hx.2.2.2),
      iff_of_true rfl ⟨h3, h4, h5, h6⟩,
      fun _ hsv0 => ?_⟩
    rw [hsv0] at h5
    exact absurd h5 (by decide)
  · exact ⟨iff_of_false (fun h => dpt h.symm) h3,
      iff_of_false (fun h => dct h.symm) (fun hx => h4 hx.2),
      iff_of_false (fun h => dft h.symm) (fun hx => h5 hx.2.2.1),
      iff_of_false (fun h => dit h.symm) (fun hx => h5 hx.2.2.1),
      fun _ _ => rfl⟩

/-- C6 (witness): a column holding only the missing sentinel `N/A` samples
non-empty, filters to nothing, and classifies as text. -/
theorem C6_amended_classification_witness :
    classifyColumn [some (strToCodes "N/A")] = strToCodes "text" :=
  (C6_amended_classification [some (strToCodes "N/A")] [] ⟨0, 0, 0⟩
    (by decide) (by decide)).2.2.2.2 (by decide) rfl

theorem column_exists_false_iff_count_zero (t : TableCols) (X : List Nat) :
    column_exists t X = false ↔ colCount t X = 0 := by
  rw [← Bool.not_eq_true, column_exists_iff_mem, ← colCount_pos_iff]
  omega

theorem colCount_append_self (t : TableCols) (X ty : List Nat) :
    colCount (t ++ [(X, ty)]) X = colCount t X + 1 := by
  simp [colCount, List.count_append]

theorem ensureStep_get_other (X ty : List Nat) (cfg : RaceConfig)
    (j i : Nat) (hij : j ≠ i) :
    (ensureStep X ty cfg j).workers[i]? = cfg.workers[i]? := by
  unfold ensureStep
  cases hw : cfg.workers[j]? with
  | none => rfl
  | some w =>
    cases w with
    | start => exact List.getElem?_set_ne hij
    | checked b =>
      cases b with
      | true => exact List.getElem?_set_ne hij
      | false =>
        by_cases hex : column_exists cfg.table X = true
        · simp only [hex, if_true]
          exact List.getElem?_set_ne hij
        · rw [Bool.not_eq_true] at hex
          simp only [hex, Bool.false_eq_true, if_false]
          exact List.getElem?_set_ne hij
    | ended r => rfl

theorem ensureStep_lt_length (X ty : List Nat) (cfg : RaceConfig) (i : Nat)
    (w : WState) (hw : cfg.workers[i]? = some w) : i < cfg.workers.length :=
  (List.getElem?_eq_some_iff.mp hw).choose

theorem ensureStep_set_self (cfg : RaceConfig) (i : Nat) (w : WState)
    (hlt : i < cfg.workers.length) :
    (cfg.workers.set i w)[i]? = some w := by
  rw [List.getElem?_set_self']
  simp [List.getElem?_eq_getElem hlt]

theorem ensureStep_start (X ty : List Nat) (cfg : RaceConfig) (i : Nat)
    (hw : cfg.workers[i]? = some .start) :
    (ensureStep X ty cfg i).workers[i]? =
      some (.checked (column_exists cfg.table X)) := by
  have hlt := ensureStep_lt_length X ty cfg i _ hw
  unfold ensureStep
  rw [hw]
  exact ensureStep_set_self cfg i _ hlt

theorem ensureStep_checked (X ty : List Nat) (cfg : RaceConfig) (i : Nat)
    (b : Bool) (hw : cfg.workers[i]? = some (.checked b)) :
    ∃ r, (ensureStep X ty cfg i).workers[i]? = some (.ended r) := by
  have hlt := ensureStep_lt_length X ty cfg i _ hw
  unfold ensureStep
  rw [hw]
  cases b with
  | true => exact ⟨false, ensureStep_set_self cfg i _ hlt⟩
  | false =>
    by_cases hex : column_exists cfg.table X = true
    · simp only [hex, if_true]
      exact ⟨false, ensureStep_set_self cfg i _ hlt⟩
    · rw [Bool.not_eq_true] at hex
      simp only [hex, Bool.false_eq_true, if_false]
      exact ⟨true, ensureStep_set_self cfg i _ hlt⟩

theorem ensureStep_ended (X ty : List Nat) (cfg : RaceConfig) (i : Nat)
    (r : Bool) (hw : cfg.workers[i]? = some (.ended r)) :
    (ensureStep X ty cfg i).workers[i]? = some (.ended r) := by
  unfold ensureStep
  rw [hw]
  exact hw

theorem run_progress (X ty : List Nat) :
    ∀ (sched : List Nat) (cfg : RaceConfig) (i : Nat),
      ((cfg.workers[i]? = some .start ∧ 2 ≤ sched.count i) ∨
        ((∃ b, cfg.workers[i]? = some (.checked b)) ∧ 1 ≤ sched.count i) ∨
        (∃ r, cfg.workers[i]? = some (.ended r))) →
      ∃ r, (ensureRun X ty cfg sched).workers[i]? = some (.ended r) := by
  intro sched
  induction sched with
  | nil =>
    intro cfg i h
    rcases h with ⟨_, hc⟩ | ⟨_, hc⟩ | h
    · simp at hc
    · simp at hc
    · exact h
  | cons j rest ih =>
    intro cfg i h
    have hrun : ensureRun X ty cfg (j :: rest) =
        ensureRun X ty (ensureStep X ty cfg j) rest := rfl
    rw [hrun]
    by_cases hij : j = i
    · subst hij
      have hcnt : (j :: rest).count j = rest.count j + 1 :=
        List.count_cons_self j rest
      rcases h with ⟨hw, hc⟩ | ⟨⟨b, hw⟩, hc⟩ | ⟨r, hw⟩
      · apply ih
        exact Or.inr (Or.inl ⟨⟨column_exists cfg.table X,
          ensureStep_start X ty cfg j hw⟩, by omega⟩)
      · apply ih
        obtain ⟨r, hr⟩ := ensureStep_checked X ty cfg j b hw
        exact Or.inr (Or.inr ⟨r, hr⟩)
      · apply ih
        exact Or.inr (Or.inr ⟨r, ensureStep_ended X ty cfg j r hw⟩)
    · have hcnt : (j :: rest).count i = rest.count i :=
        List.count_cons_of_ne (fun he => hij he.symm) rest
      have hpres := ensureStep_get_other X ty cfg j i hij
      apply ih
      rcases h with ⟨hw, hc⟩ | ⟨⟨b, hw⟩, hc⟩ | ⟨r, hw⟩
      · exact Or.inl ⟨hpres.trans hw, by omega⟩
      · exact Or.inr (Or.inl ⟨⟨b, hpres.trans hw⟩, by omega⟩)
      · exact Or.inr (Or.inr ⟨r, hpres.trans hw⟩)

theorem raceInv_step (X ty : List Nat) (cfg : RaceConfig) (j : Nat)
    (h1 : colCount cfg.table X ≤ 1)
    (h2 : colCount cfg.table X = 0 →
      ∀ w ∈ cfg.workers, w = .start ∨ w = .checked false) :
    colCount (ensureStep X ty cfg j).table X ≤ 1 ∧
      (colCount (ensureStep X ty cfg j).table X = 0 →
        ∀ w ∈ (ensureStep X ty cfg j).workers,
          w = .start ∨ w = .checked false) := by
  unfold ensureStep
  cases hw : cfg.workers[j]? with
  | none => exact ⟨h1, h2⟩
  | some w =>
    have hmemj : w ∈ cfg.workers := by
      obtain ⟨hlt, he⟩ := List.getElem?_eq_some_iff.mp hw
      exact he ▸ List.getElem_mem hlt
    cases w with
    | start =>
      refine ⟨h1, fun h0 w' hw' => ?_⟩
      rcases List.mem_or_eq_of_mem_set hw' with hmem | rfl
      · exact h2 h0 w' hmem
      · have hex : column_exists cfg.table X = false :=
          (column_exists_false_iff_count_zero cfg.table X).mpr h0
        rw [hex]
        exact Or.inr rfl
    | checked b =>
      cases b with
      | true =>
        refine ⟨h1, fun h0 w' hw' => ?_⟩
        exfalso
        rcases h2 h0 _ hmemj with habs | habs
        · exact WState.noConfusion habs
        · simp at habs
      | false =>
        by_cases hex : column_exists cfg.table X = true
        · simp only [hex, if_true]
          refine ⟨h1, fun h0 w' hw' => ?_⟩
          exfalso
          have hff : column_exists cfg.table X = false :=
            (column_exists_false_iff_count_zero cfg.table X).mpr h0
          rw [hex] at hff
          exact Bool.noConfusion hff
        · rw [Bool.not_eq_true] at hex
          simp only [hex, Bool.false_eq_true, if_false]
          have h0 : colCount cfg.table X = 0 :=
            (column_exists_false_iff_count_zero cfg.table X).mp hex
          refine ⟨?_, fun habs w' hw' => ?_⟩
          · rw [colCount_append_self, h0]
          · exfalso
            rw [colCount_append_self, h0] at habs
            exact Nat.noConfusion habs
    | ended r => exact ⟨h1, h2⟩

theorem raceInv_run (X ty : List Nat) :
    ∀ (sched : List Nat) (cfg : RaceConfig),
      colCount cfg.table X ≤ 1 →
      (colCount cfg.table X = 0 →
        ∀ w ∈ cfg.workers, w = .start ∨ w = .checked false) →
      colCount (ensureRun X ty cfg sched).table X ≤ 1 ∧
        (colCount (ensureRun X ty cfg sched).table X = 0 →
          ∀ w ∈ (ensureRun X ty cfg sched).workers,
            w = .start ∨ w = .checked false) := by
  intro sched
  induction sched with
  | nil => intro cfg h1 h2; exact ⟨h1, h2⟩
  | cons j rest ih =>
    intro cfg h1 h2
    obtain ⟨h1', h2'⟩ := raceInv_step X ty cfg j h1 h2
    exact ih (ensureStep X ty cfg j) h1' h2'

/-- C2: concurrent ensure-column safety. For any number `N ≥ 1` of workers
concurrently running `add_column_if_not_exists` for the same column `X` on
the same table, under any interleaving that schedules each worker its two
steps: every worker runs to completion returning a boolean — no exception
escapes, a lost race is swallowed into a `False` return — and the table
ends with exactly one column named `X` (assuming it held at most one to
begin with, e.g. none). -/
theorem C2_concurrent_column_safety :
    ∀ (X ty : List Nat) (t : TableCols) (N : Nat) (sched : List Nat),
      colCount t X ≤ 1 → 1 ≤ N → (∀ i, i < N → 2 ≤ sched.count i) →
      (∀ i, i < N → ∃ r,
        (ensureRun X ty ⟨t, List.replicate N .start⟩ sched).workers[i]? =
          some (.ended r)) ∧
      colCount
        (ensureRun X ty ⟨t, List.replicate N .start⟩ sched).table X = 1 := by
  intro X ty t N sched hcount hN hsched
  have hprog : ∀ i, i < N → ∃ r,
      (ensureRun X ty ⟨t, List.replicate N .start⟩ sched).workers[i]? =
        some (.ended r) := by
    intro i hi
    apply run_progress X ty sched ⟨t, List.replicate N .start⟩ i
    refine Or.inl ⟨?_, hsched i hi⟩
    show (List.replicate N WState.start)[i]? = some WState.start
    simp [List.getElem?_replicate, hi]
  refine ⟨hprog, ?_⟩
  obtain ⟨hinv1, hinv2⟩ := raceInv_run X ty sched
    ⟨t, List.replicate N .start⟩ hcount
    (fun _ w hw => Or.inl (List.eq_of_mem_replicate hw))
  obtain ⟨r, hr⟩ := hprog 0 (by omega)
  by_cases h0 : colCount
      (ensureRun X ty ⟨t, List.replicate N .start⟩ sched).table X = 0
  · exfalso
    have hmem : WState.ended r ∈
        (ensureRun X ty ⟨t, List.replicate N .start⟩ sched).workers := by
      obtain ⟨hlt, he⟩ := List.getElem?_eq_some_iff.mp hr
      exact he ▸ List.getElem_mem hlt
    rcases hinv2 h0 _ hmem with habs | habs <;> exact WState.noConfusion habs
  · omega

/-- C2 (witness): two workers racing to add `lat NUMERIC` to an empty
table, interleaved check-check-add-add, both finish and the table ends
with exactly one `lat` column. -/
theorem C2_concurrent_column_safety_witness :
    colCount
      (ensureRun (strToCodes "lat") (strToCodes "NUMERIC")
        ⟨[], List.replicate 2 .start⟩ [0, 1, 0, 1]).table
      (strToCodes "lat") = 1 :=
  (C2_concurrent_column_safety (strToCodes "lat") (strToCodes "NUMERIC")
    [] 2 [0, 1, 0, 1] (by decide) (by decide) (by decide)).2

/-- C4 (counterexample): the guarantee fails on non-ASCII input. Python's
`\w` matches the Unicode letter `é`, so `normalize_db_column_name "Café"`
returns `café`, which does not match `^[a-z][a-z0-9_]\x7b0,59\x7d$`. -/
theorem C4_counterexample :
    matchesIdentRegex (normalize_db_column_name (strToCodes "Café")) =
        false ∧
      normalize_db_column_name (strToCodes "Café") = strToCodes "café" := by
  exact ⟨by decide, by decide⟩

theorem lower_ascii : ∀ n, n < 128 →
    pyLower n < 128 ∧ ¬(65 ≤ pyLower n ∧ pyLower n ≤ 90) := by
  decide

theorem word_space_class : ∀ n, n < 128 → ¬(65 ≤ n ∧ n ≤ 90) →
    (pyIsWordChar n || pyIsSpace n) = true →
    ((isAsciiLower n || isAsciiDigit n || n == 95) = true ∨
      pyIsSpace n = true) := by
  decide

theorem goodChar_le (n : Nat)
    (h : (isAsciiLower n || isAsciiDigit n || n == 95) = true) : n ≤ 122 := by
  simp only [isAsciiLower, isAsciiDigit, Bool.or_eq_true, decide_eq_true_eq,
    beq_iff_eq] at h
  rcases h with (h | h) | h <;> omega

theorem good_lower_fix : ∀ n, n < 123 →
    (isAsciiLower n || isAsciiDigit n || n == 95) = true →
    pyLower n = n := by
  decide

theorem good_not_digit_lower : ∀ n, n < 123 →
    (isAsciiLower n || isAsciiDigit n || n == 95) = true →
    n ≠ 95 → pyIsDigit n = false → isAsciiLower n = true := by
  decide

theorem reservedWords_length : ∀ w ∈ reservedWords, w.length ≤ 14 := by
  decide

theorem reservedWords_col_suffix : ∀ w ∈ reservedWords,
    reservedWords.contains (w ++ strToCodes "_col") = false := by
  decide

theorem mem_pyStrip {c : Nat} {l : List Nat} (h : c ∈ pyStrip l) : c ∈ l := by
  unfold pyStrip at h
  rw [List.mem_reverse] at h
  have h2 := (List.dropWhile_suffix pyIsSpace).subset h
  rw [List.mem_reverse] at h2
  exact (List.dropWhile_suffix pyIsSpace).subset h2

theorem mem_stripUnderscores {c : Nat} {l : List Nat}
    (h : c ∈ stripUnderscores l) : c ∈ l := by
  unfold stripUnderscores at h
  rw [List.mem_reverse] at h
  have h2 := (List.dropWhile_suffix (· == 95)).subset h
  rw [List.mem_reverse] at h2
  exact (List.dropWhile_suffix (· == 95)).subset h2

theorem replaceAllAux_all {Q : Nat → Prop} (pat repl : List Nat)
    (hrepl : ∀ c ∈ repl, Q c) :
    ∀ (fuel : Nat) (l : List Nat), (∀ c ∈ l, Q c) →
      ∀ c ∈ replaceAllAux pat repl fuel l, Q c := by
  intro fuel
  induction fuel with
  | zero => intro l hl c hc; exact hl c hc
  | succ f ih =>
    intro l hl c hc
    cases l with
    | nil => simp [replaceAllAux] at hc
    | cons a rest =>
      by_cases hp : pat ≠ [] ∧ pat.isPrefixOf (a :: rest)
      · simp only [replaceAllAux, if_pos hp] at hc
        rcases List.mem_append.mp hc with hc | hc
        · exact hrepl c hc
        · exact ih _ (fun d hd => hl d (List.mem_of_mem_drop hd)) c hc
      · simp only [replaceAllAux, if_neg hp] at hc
        rcases List.mem_cons.mp hc with rfl | hc
        · exact hl _ (List.mem_cons_self _ _)
        · exact ih rest (fun d hd => hl d (List.mem_cons_of_mem a hd)) c hc

theorem replaceAll_all {Q : Nat → Prop} (pat repl l : List Nat)
    (hrepl : ∀ c ∈ repl, Q c) (hl : ∀ c ∈ l, Q c) :
    ∀ c ∈ replaceAll pat repl l, Q c :=
  replaceAllAux_all pat repl hrepl l.length l hl

theorem foldl_replaceAll_all {Q : Nat → Prop} :
    ∀ (rs : List (List Nat × List Nat)) (l : List Nat),
      (∀ pr ∈ rs, ∀ c ∈ pr.2, Q c) → (∀ c ∈ l, Q c) →
      ∀ c ∈ rs.foldl (fun acc pr => replaceAll pr.1 pr.2 acc) l, Q c := by
  intro rs
  induction rs with
  | nil => intro l _ hl c hc; exact hl c hc
  | cons pr rest ih =>
    intro l hrs hl c hc
    simp only [List.foldl_cons] at hc
    exact ih (replaceAll pr.1 pr.2 l)
      (fun q hq => hrs q (List.mem_cons_of_mem pr hq))
      (replaceAll_all pr.1 pr.2 l (hrs pr (List.mem_cons_self pr rest)) hl)
      c hc

theorem collapseRunsAux_all (p : Nat → Bool) (r : Nat) :
    ∀ (fuel : Nat) (l : List Nat), l.length ≤ fuel →
      ∀ c ∈ collapseRunsAux p r fuel l,
        c = r ∨ (c ∈ l ∧ p c = false) := by
  intro fuel
  induction fuel with
  | zero =>
    intro l hl c hc
    have : l = [] := List.eq_nil_of_length_eq_zero (Nat.le_zero.mp hl)
    subst this
    simp [collapseRunsAux] at hc
  | succ f ih =>
    intro l hl c hc
    cases l with
    | nil => simp [collapseRunsAux] at hc
    | cons a rest =>
      by_cases hp : p a = true
      · simp only [collapseRunsAux, if_pos hp] at hc
        rcases List.mem_cons.mp hc with rfl | hc
        · exact Or.inl rfl
        · have hlen : (rest.dropWhile p).length ≤ f := by
            have hsuf : rest.dropWhile p <:+ rest := List.dropWhile_suffix p
            have := hsuf.length_le
            simp only [List.length_cons] at hl
            omega
          rcases ih (rest.dropWhile p) hlen c hc with h | ⟨hmem, hpc⟩
          · exact Or.inl h
          · exact Or.inr ⟨List.mem_cons_of_mem a
              ((List.dropWhile_suffix p).subset hmem), hpc⟩
      · simp only [collapseRunsAux, if_neg hp] at hc
        rcases List.mem_cons.mp hc with rfl | hc
        · refine Or.inr ⟨List.mem_cons_self _ _, ?_⟩
          rw [Bool.not_eq_true] at hp
          exact hp
        · have hlen : rest.length ≤ f := by
            simp only [List.length_cons] at hl
            omega
          rcases ih rest hlen c hc with h | ⟨hmem, hpc⟩
          · exact Or.inl h
          · exact Or.inr ⟨List.mem_cons_of_mem a hmem, hpc⟩

theorem collapseRuns_all (p : Nat → Bool) (r : Nat) (l : List Nat) :
    ∀ c ∈ collapseRuns p r l, c = r ∨ (c ∈ l ∧ p c = false) :=
  collapseRunsAux_all p r l.length l le_rfl

theorem dropWhile_headD_false (p : Nat → Bool) :
    ∀ l : List Nat, l.dropWhile p ≠ [] →
      p ((l.dropWhile p).headD 32) = false := by
  intro l
  induction l with
  | nil => intro h; simp at h
  | cons a rest ih =>
    intro h
    by_cases hp : p a = true
    · rw [List.dropWhile_cons_of_pos hp] at h ⊢
      exact ih h
    · rw [List.dropWhile_cons_of_neg hp] at h ⊢
      simpa using Bool.not_eq_true _ ▸ hp

theorem stripUnderscores_headD (m : List Nat)
    (h : stripUnderscores m ≠ []) : (stripUnderscores m).headD 32 ≠ 95 := by
  have hpre : stripUnderscores m <+: m.dropWhile (· == 95) := by
    have hs : (m.dropWhile (· == 95)).reverse.dropWhile (· == 95) <:+
        (m.dropWhile (· == 95)).reverse := List.dropWhile_suffix (· == 95)
    have h2 : ((stripUnderscores m).reverse : List Nat) <:+
        (m.dropWhile (· == 95)).reverse := by
      unfold stripUnderscores
      simpa using hs
    exact List.reverse_suffix.mp h2
  obtain ⟨t, ht⟩ := hpre
  cases hs7 : stripUnderscores m with
  | nil => exact absurd hs7 h
  | cons c cs =>
    rw [hs7] at ht
    have hdw : m.dropWhile (· == 95) = c :: (cs ++ t) := by
      rw [← ht]
      simp
    have hd := dropWhile_headD_false (· == 95) m (by rw [hdw]; simp)
    rw [hdw] at hd
    simp only [List.headD_cons] at hd ⊢
    simpa using hd

theorem map_fix {f : Nat → Nat} :
    ∀ l : List Nat, (∀ c ∈ l, f c = c) → l.map f = l := by
  intro l
  induction l with
  | nil => intro _; rfl
  | cons a rest ih =>
    intro h
    simp only [List.map_cons]
    rw [h a (List.mem_cons_self a rest),
      ih (fun c hc => h c (List.mem_cons_of_mem a hc))]

theorem headD_append (s t : List Nat) (h : s ≠ []) :
    (s ++ t).headD 32 = s.headD 32 := by
  cases s with
  | nil => exact absurd rfl h
  | cons a rest => rfl

theorem matchesIdentRegex_intro (l : List Nat) (hne : l ≠ [])
    (hhead : isAsciiLower (l.headD 32) = true)
    (hall : ∀ c ∈ l, (isAsciiLower c || isAsciiDigit c || c == 95) = true)
    (hlen : l.length ≤ 60) : matchesIdentRegex l = true := by
  cases l with
  | nil => exact absurd rfl hne
  | cons c rest =>
    simp only [matchesIdentRegex, Bool.and_eq_true, List.all_eq_true,
      decide_eq_true_eq]
    refine ⟨⟨?_, fun x hx => hall x (List.mem_cons_of_mem c hx)⟩, ?_⟩
    · simpa using hhead
    · simp only [List.length_cons] at hlen
      omega

theorem not_reserved_of_long (l : List Nat) (hlen : 15 ≤ l.length) :
    reservedWords.contains l = false := by
  rw [← Bool.not_eq_true]
  intro habs
  have hmem : l ∈ reservedWords := by simpa using habs
  have := reservedWords_length l hmem
  omega

theorem normalizePost_aux :
    ∀ (s8 s9 s10 : List Nat),
      (∀ c ∈ s8, (isAsciiLower c || isAsciiDigit c || c == 95) = true) →
      s8 ≠ [] → s8.headD 32 ≠ 95 →
      s9 = (if pyIsDigit (s8.headD 32) then strToCodes "col_" ++ s8
        else s8) →
      s10 = (if reservedWords.contains (s9.map pyLower) then
        s9 ++ strToCodes "_col" else s9) →
      matchesIdentRegex (s10.take 60) = true ∧
        reservedWords.contains (s10.take 60) = false := by
  intro s8 s9 s10 hg8 hne8 hh8 hs9 hs10
  have hg9 : ∀ c ∈ s9,
      (isAsciiLower c || isAsciiDigit c || c == 95) = true := by
    rw [hs9]
    split_ifs with hd
    · intro c hc
      rcases List.mem_append.mp hc with hc | hc
      · exact (by decide :
          ∀ c ∈ strToCodes "col_",
            (isAsciiLower c || isAsciiDigit c || c == 95) = true) c hc
      · exact hg8 c hc
    · exact hg8
  have hne9 : s9 ≠ [] := by
    rw [hs9]
    split_ifs with hd
    · simp [strToCodes]
    · exact hne8
  have hhead9 : isAsciiLower (s9.headD 32) = true := by
    rw [hs9]
    split_ifs with hd
    · rw [headD_append _ _ (by decide)]
      decide
    · have hmemh : s8.headD 32 ∈ s8 := by
        cases s8 with
        | nil => exact absurd rfl hne8
        | cons c rest => exact List.mem_cons_self _ _
      have hgb := hg8 _ hmemh
      have hle := goodChar_le _ hgb
      rw [Bool.not_eq_true] at hd
      exact good_not_digit_lower _ (by omega) hgb hh8 hd
  have hmap : s9.map pyLower = s9 :=
    map_fix s9 (fun c hc => good_lower_fix c
      (by have := goodChar_le c (hg9 c hc); omega) (hg9 c hc))
  rw [hmap] at hs10
  by_cases hres : reservedWords.contains s9 = true
  · have hs10e : s10 = s9 ++ strToCodes "_col" := by
      rw [hs10, if_pos hres]
    have hmem : s9 ∈ reservedWords := by simpa using hres
    have hlen9 := reservedWords_length s9 hmem
    have hlen10 : s10.length ≤ 18 := by
      rw [hs10e, List.length_append]
      have : (strToCodes "_col").length = 4 := by decide
      omega
    have htake : s10.take 60 = s10 := List.take_of_length_le (by omega)
    rw [htake]
    constructor
    · apply matchesIdentRegex_intro
      · rw [hs10e]
        intro habs
        rcases List.append_eq_nil.mp habs with ⟨h1, -⟩
        exact hne9 h1
      · rw [hs10e, headD_append _ _ hne9]
        exact hhead9
      · rw [hs10e]
        intro c hc
        rcases List.mem_append.mp hc with hc | hc
        · exact hg9 c hc
        · exact (by decide :
            ∀ c ∈ strToCodes "_col",
              (isAsciiLower c || isAsciiDigit c || c == 95) = true) c hc
      · omega
    · rw [hs10e]
      exact reservedWords_col_suffix s9 hmem
  · rw [Bool.not_eq_true] at hres
    have hs10e : s10 = s9 := by
      rw [hs10, hres]
      simp
    by_cases hlen : s9.length ≤ 60
    · have htake : s10.take 60 = s9 := by
        rw [hs10e]
        exact List.take_of_length_le hlen
      rw [htake]
      exact ⟨matchesIdentRegex_intro s9 hne9 hhead9 hg9 hlen, hres⟩
    · have hlen60 : (s10.take 60).length = 60 := by
        rw [hs10e, List.length_take]
        omega
      constructor
      · apply matchesIdentRegex_intro
        · intro habs
          rw [habs] at hlen60
          simp at hlen60
        · rw [hs10e]
          cases s9 with
          | nil => exact absurd rfl hne9
          | cons c rest =>
            rw [show (60 : Nat) = 59 + 1 from rfl, List.take_succ_cons]
            exact hhead9
        · intro c hc
          exact hg9 c (List.mem_of_mem_take (hs10e ▸ hc))
        · omega
      · exact not_reserved_of_long _ (by omega)

theorem normalizePost_ok :
    ∀ (s7 s8 s9 s10 : List Nat),
      (∀ c ∈ s7, (isAsciiLower c || isAsciiDigit c || c == 95) = true) →
      (s7 ≠ [] → s7.headD 32 ≠ 95) →
      s8 = (if s7 = [] then strToCodes "unnamed_column" else s7) →
      s9 = (if pyIsDigit (s8.headD 32) then strToCodes "col_" ++ s8
        else s8) →
      s10 = (if reservedWords.contains (s9.map pyLower) then
        s9 ++ strToCodes "_col" else s9) →
      matchesIdentRegex (s10.take 60) = true ∧
        reservedWords.contains (s10.take 60) = false := by
  intro s7 s8 s9 s10 hg7 hh7 hs8 hs9 hs10
  by_cases h7 : s7 = []
  · have hs8e : s8 = strToCodes "unnamed_column" := by
      rw [hs8, if_pos h7]
    exact normalizePost_aux s8 s9 s10 (by rw [hs8e]; decide)
      (by rw [hs8e]; decide) (by rw [hs8e]; decide) hs9 hs10
  · have hs8e : s8 = s7 := by
      rw [hs8, if_neg h7]
    exact normalizePost_aux s8 s9 s10 (by rw [hs8e]; exact hg7)
      (by rw [hs8e]; exact h7) (by rw [hs8e]; exact hh7 h7) hs9 hs10

/-- C4 (amended): for every raw header string made of ASCII characters —
including empty, digit-leading, and symbol-only inputs —
`normalize_db_column_name` returns a string matching
`^[a-z][a-z0-9_]\x7b0,59\x7d$` that is not a reserved word. (The original
claim also covered non-ASCII inputs; `C4_counterexample` shows those can
violate the regex, so the guarantee is restricted to ASCII.) -/
theorem C4_amended_wellformed :
    ∀ name : List Nat, (∀ c ∈ name, c < 128) →
      matchesIdentRegex (normalize_db_column_name name) = true ∧
        reservedWords.contains (normalize_db_column_name name) = false := by
  intro name hascii
  by_cases h0 : name = [] ∨ pyStrip name = []
  · unfold normalize_db_column_name
    rw [if_pos h0]
    exact ⟨by decide, by decide⟩
  · have h1 : ∀ c ∈ pyStrip name, c < 128 :=
      fun c hc => hascii c (mem_pyStrip hc)
    have h2 : ∀ c ∈ (pyStrip name).map pyLower,
        c < 128 ∧ ¬(65 ≤ c ∧ c ≤ 90) := by
      intro c hc
      obtain ⟨d, hd, rfl⟩ := List.mem_map.mp hc
      exact lower_ascii d (h1 d hd)
    have h3 : ∀ c ∈ unitReplacements.foldl
        (fun acc pr => replaceAll pr.1 pr.2 acc) ((pyStrip name).map pyLower),
        c < 128 ∧ ¬(65 ≤ c ∧ c ≤ 90) :=
      foldl_replaceAll_all unitReplacements _ (by decide) h2
    have h4 : ∀ c ∈ (unitReplacements.foldl
        (fun acc pr => replaceAll pr.1 pr.2 acc)
        ((pyStrip name).map pyLower)).filter
          (fun c => pyIsWordChar c || pyIsSpace c),
        ((isAsciiLower c || isAsciiDigit c || c == 95) = true ∨
          pyIsSpace c = true) := by
      intro c hc
      obtain ⟨hmem, hp⟩ := List.mem_filter.mp hc
      obtain ⟨hlt, hup⟩ := h3 c hmem
      exact word_space_class c hlt hup hp
    have h5 : ∀ c ∈ collapseRuns pyIsSpace 95 ((unitReplacements.foldl
        (fun acc pr => replaceAll pr.1 pr.2 acc)
        ((pyStrip name).map pyLower)).filter
          (fun c => pyIsWordChar c || pyIsSpace c)),
        (isAsciiLower c || isAsciiDigit c || c == 95) = true := by
      intro c hc
      rcases collapseRuns_all pyIsSpace 95 _ c hc with rfl | ⟨hmem, hps⟩
      · decide
      · rcases h4 c hmem with h | h
        · exact h
        · rw [h] at hps
          exact Bool.noConfusion hps
    have h6 : ∀ c ∈ collapseRuns (· == 95) 95
        (collapseRuns pyIsSpace 95 ((unitReplacements.foldl
          (fun acc pr => replaceAll pr.1 pr.2 acc)
          ((pyStrip name).map pyLower)).filter
            (fun c => pyIsWordChar c || pyIsSpace c))),
        (isAsciiLower c || isAsciiDigit c || c == 95) = true := by
      intro c hc
      rcases collapseRuns_all (· == 95) 95 _ c hc with rfl | ⟨hmem, -⟩
      · decide
      · exact h5 c hmem
    have hg7 : ∀ c ∈ stripUnderscores (collapseRuns (· == 95) 95
        (collapseRuns pyIsSpace 95 ((unitReplacements.foldl
          (fun acc pr => replaceAll pr.1 pr.2 acc)
          ((pyStrip name).map pyLower)).filter
            (fun c => pyIsWordChar c || pyIsSpace c)))),
        (isAsciiLower c || isAsciiDigit c || c == 95) = true :=
      fun c hc => h6 c (mem_stripUnderscores hc)
    simp only [normalize_db_column_name]
    rw [if_neg h0]
    exact normalizePost_ok _ _ _ _ hg7
      (fun hne => stripUnderscores_headD _ hne) rfl rfl rfl

/-- C4 (witness): the ASCII header `Installed Capacity (MW)` normalizes to
a well-formed, non-reserved identifier. -/
theorem C4_amended_wellformed_witness :
    matchesIdentRegex
        (normalize_db_column_name (strToCodes "Installed Capacity (MW)")) =
        true ∧
      reservedWords.contains
        (normalize_db_column_name (strToCodes "Installed Capacity (MW)")) =
        false :=
  C4_amended_wellformed (strToCodes "Installed Capacity (MW)") (by decide)
